import Mathlib

/-!
Verification of the iterative-deepening negamax core (serial searcher,
transposition table, quiescence extension, null-window search, and the
Young-Brothers-Wait parallel variant) against its specification.

The definitions below are a shallow embedding of `src/strategies/iterative.rs`
and `src/strategies/ybw.rs`.  Code of the repository that those files use but
that is not itself part of the sources at hand (the `Table` trait's `check`,
`update` and `populate_pv` from `table.rs`, and the evaluation constants and
`clamp_value` from `util.rs`) is modelled from the specification text, and
each such definition says so in its doc comment.

Machine-integer conventions: `Evaluation` (Rust `i32`) is modelled as `Int`
(all arithmetic performed on it stays far inside the `i32` range because every
produced value lies in `[WORST_EVAL - 1, BEST_EVAL + 1]`); `u8` quantities
(depth, generation) are modelled as `Nat` with explicit `% 256` where the Rust
code truncates or wraps; `u64`/`usize` hashes and indices are `Nat`, with
masking written out via `&&&`.
-/

namespace Minimax

set_option autoImplicit false

/-- Evaluation scores.  Modelled from the spec: `util.rs` is not among the
sources; the spec fixes `Evaluation` as a signed 32-bit score. -/
abbrev Evaluation := Int

/-- Modelled from the spec: `BEST_EVAL` is the winning sentinel magnitude,
"strictly inside the representable range; e.g. ±1 000 000 000". -/
def BEST_EVAL : Evaluation := 1000000000

/-- Modelled from the spec: `WORST_EVAL = −BEST_EVAL`. -/
def WORST_EVAL : Evaluation := -BEST_EVAL

/-- Modelled from the spec: `clamp_value` saturates into
`[WORST_EVAL, BEST_EVAL]` (spec §4.3 step 10). -/
def clamp_value (v : Evaluation) : Evaluation :=
  max WORST_EVAL (min BEST_EVAL v)

/-- Modelled from the spec: `root_value()` returns the unclamped evaluation;
the spec gives no further description of `unclamp_value` (`util.rs` is not
among the sources), so it is modelled as the identity map. -/
def unclamp_value (v : Evaluation) : Evaluation := v

/-- `EntryFlag` of a transposition-table entry (spec §3; used by
`iterative.rs`). -/
inductive EntryFlag where
  | Exact
  | LowerBound
  | UpperBound
deriving DecidableEq, Repr

/-- A transposition-table entry, from `iterative.rs` / spec §3. -/
structure Entry (M : Type) where
  hash : Nat
  value : Evaluation
  depth : Nat
  flag : EntryFlag
  generation : Nat
  best_move : Option M
deriving DecidableEq, Repr

/-- `Replacement` strategies, from `iterative.rs`. -/
inductive Replacement where
  | Always
  | DepthPreferred
  | TwoTier
deriving DecidableEq, Repr

/-- The slot value a fresh table is filled with (`TranspositionTable::new`). -/
def emptyEntry (M : Type) : Entry M :=
  { hash := 0, value := 0, depth := 0, flag := EntryFlag.Exact,
    generation := 0, best_move := none }

/-- `TranspositionTable` from `iterative.rs`.  The `Vec<Entry<M>>` is a
`List (Entry M)`; `generation` is a `u8` value kept below 256. -/
structure TranspositionTable (M : Type) where
  table : List (Entry M)
  mask : Nat
  generation : Nat
  strategy : Replacement

namespace TranspositionTable

/-- The complement mask `!1` on a 64-bit `usize`, written out as a `Nat`. -/
def usizeNotOne : Nat := 2 ^ 64 - 2

/-- Doubling helper for `next_power_of_two`: starting from `acc`, double at
most `fuel` times until `n ≤ acc`. -/
def npt_go (n : Nat) : Nat → Nat → Nat
  | 0, acc => acc
  | fuel + 1, acc => if n ≤ acc then acc else npt_go n fuel (2 * acc)

/-- Rust's `usize::next_power_of_two`: the least power of two `≥ n` (and `1`
for `n = 0`).  `n` doublings from `1` always suffice since `n ≤ 2 ^ n`. -/
def next_power_of_two (n : Nat) : Nat := npt_go n n 1

/-- `TranspositionTable::new`.  `size` is Rust's
`(table_byte_size / size_of::<Entry<M>>()).next_power_of_two()`, the least
power of two that is `≥` the quotient (and `1` when the quotient is `0`).
`entry_size` stands for `size_of::<Entry<M>>()`, which Lean cannot compute
from `M`. -/
def new (M : Type) (entry_size table_byte_size : Nat) (strategy : Replacement) :
    TranspositionTable M :=
  let size := next_power_of_two (table_byte_size / entry_size)
  let mask := if strategy = Replacement.TwoTier
    then (size - 1) &&& usizeNotOne else size - 1
  { table := List.replicate size (emptyEntry M)
  , mask := mask
  , generation := 0
  , strategy := strategy }

/-- `TranspositionTable::lookup` from `iterative.rs`.  Out-of-range reads
(`self.table[index]`, a panic in Rust) are modelled with `List.getD`; the
indices the code touches are collected separately by `lookupIndices` and the
safety claim is stated about those. -/
def lookup {M : Type} (t : TranspositionTable M) (hash : Nat) :
    Option (Entry M) :=
  let index := hash &&& t.mask
  let entry := t.table.getD index (emptyEntry M)
  if hash = entry.hash then some entry
  else if t.strategy = Replacement.TwoTier then
    let entry2 := t.table.getD (index + 1) (emptyEntry M)
    if hash = entry2.hash then some entry2 else none
  else none

/-- The vector indices `TranspositionTable::lookup` accesses, in order. -/
def lookupIndices {M : Type} (t : TranspositionTable M) (hash : Nat) :
    List Nat :=
  let index := hash &&& t.mask
  let entry := t.table.getD index (emptyEntry M)
  if hash = entry.hash then [index]
  else if t.strategy = Replacement.TwoTier then [index, index + 1]
  else [index]

/-- `TranspositionTable::store` from `iterative.rs`. -/
def store {M : Type} (t : TranspositionTable M) (hash : Nat) (value : Evaluation)
    (depth : Nat) (flag : EntryFlag) (best_move : M) : TranspositionTable M :=
  let dest : Option Nat :=
    match t.strategy with
    | Replacement.Always => some (hash &&& t.mask)
    | Replacement.DepthPreferred =>
      let index := hash &&& t.mask
      let entry := t.table.getD index (emptyEntry M)
      if entry.generation ≠ t.generation ∨ entry.depth ≤ depth
      then some index else none
    | Replacement.TwoTier =>
      let index := hash &&& t.mask
      let entry := t.table.getD index (emptyEntry M)
      if entry.generation ≠ t.generation ∨ entry.depth ≤ depth
      then some index else some (index + 1)
  let newEntry : Entry M :=
    { hash := hash, value := value, depth := depth, flag := flag,
      generation := t.generation, best_move := some best_move }
  match dest with
  | none => t
  | some index => { t with table := t.table.set index newEntry }

/-- The vector indices `TranspositionTable::store` accesses (read or write),
in order. -/
def storeIndices {M : Type} (t : TranspositionTable M) (hash : Nat)
    (depth : Nat) : List Nat :=
  let index := hash &&& t.mask
  match t.strategy with
  | Replacement.Always => [index]
  | Replacement.DepthPreferred => [index]
  | Replacement.TwoTier =>
    let entry := t.table.getD index (emptyEntry M)
    if entry.generation ≠ t.generation ∨ entry.depth ≤ depth
    then [index] else [index, index + 1]

/-- `TranspositionTable::advance_generation`: wrapping `u8` increment. -/
def advance_generation {M : Type} (t : TranspositionTable M) :
    TranspositionTable M :=
  { t with generation := (t.generation + 1) % 256 }

/-- Modelled from the spec: the `Table` trait's combined probe+tighten
`check(hash, depth, &good_move, &α, &β)` lives in `table.rs`, which is not
among the sources.  Spec §4.1: look up the entry; if present copy its
`best_move` into `good_move`; if its depth is at least the requested depth,
use the flag to tighten the window (Exact returns the value immediately,
LowerBound raises α, UpperBound lowers β) and return the stored value if
afterwards α ≥ β; otherwise return no value.  The result is
`(good_move, α, β, returned value)`. -/
def check {M : Type} (t : TranspositionTable M) (hash : Nat) (depth : Nat)
    (good_move : Option M) (alpha beta : Evaluation) :
    Option M × Evaluation × Evaluation × Option Evaluation :=
  match lookup t hash with
  | none => (good_move, alpha, beta, none)
  | some entry =>
    let good_move := entry.best_move
    if depth ≤ entry.depth then
      match entry.flag with
      | EntryFlag.Exact => (good_move, alpha, beta, some entry.value)
      | EntryFlag.LowerBound =>
        let alpha := max alpha entry.value
        if beta ≤ alpha then (good_move, alpha, beta, some entry.value)
        else (good_move, alpha, beta, none)
      | EntryFlag.UpperBound =>
        let beta := min beta entry.value
        if beta ≤ alpha then (good_move, alpha, beta, some entry.value)
        else (good_move, alpha, beta, none)
    else (good_move, alpha, beta, none)

/-- Modelled from the spec: the `Table` trait's
`update(hash, α_orig, β, depth, best, best_move)` lives in `table.rs`, which
is not among the sources.  Spec §4.1: choose a flag — UpperBound if
`best ≤ α_orig`, LowerBound if `best ≥ β`, else Exact — and store. -/
def update {M : Type} (t : TranspositionTable M) (hash : Nat)
    (alpha_orig beta : Evaluation) (depth : Nat) (best : Evaluation)
    (best_move : M) : TranspositionTable M :=
  let flag :=
    if best ≤ alpha_orig then EntryFlag.UpperBound
    else if beta ≤ best then EntryFlag.LowerBound
    else EntryFlag.Exact
  store t hash best depth flag best_move

end TranspositionTable

/-- The external collaborators of the search engine (spec §6): the `Game`
capability set together with the `Evaluator`.  `get_winner` folds the game's
`get_winner` and `Winner::evaluate` into one map to the terminal evaluation.
Rust's in-place `Move::apply`/`Move::undo` become state transformers. -/
structure Game (S M : Type) where
  generate_moves : S → List M
  generate_noisy_moves : S → List M
  get_winner : S → Option Evaluation
  apply : M → S → S
  undo : M → S → S
  zobrist : S → Nat
  evaluate : S → Evaluation

/-- Result of a quiescence search call: the returned value (`none` models the
Rust `None` timeout result), the game state as left by the call, the number of
timeout-flag polls performed so far, and the nesting depth of recursive calls
made by this call (`0` when it made none). -/
structure QRes (S : Type) where
  value : Option Evaluation
  s : S
  polls : Nat
  height : Nat

/-- The move loop of `Negamaxer::noisy_negamax` (iterative.rs).  `child` is
the recursive quiescence search at the next depth.  Mirrors the Rust loop:
apply the move, search `[-beta, -alpha]`, propagate `None` (the `?` fires
before `m.undo`, so the state is left with `m` applied), otherwise undo,
fold into `best`/`alpha`, and break on `alpha ≥ beta`. -/
def noisy_loop {S M : Type} (g : Game S M)
    (child : S → Nat → Evaluation → Evaluation → QRes S) :
    List M → S → Nat → Evaluation → Evaluation → Evaluation → Nat → QRes S
  | [], s, polls, best, _alpha, _beta, hAcc => ⟨some best, s, polls, hAcc⟩
  | m :: ms, s, polls, best, alpha, beta, hAcc =>
    match child (g.apply m s) polls (-beta) (-alpha) with
    | ⟨none, rs, rpolls, rh⟩ => ⟨none, rs, rpolls, max hAcc (1 + rh)⟩
    | ⟨some v, rs, rpolls, rh⟩ =>
      let hAcc := max hAcc (1 + rh)
      let s2 := g.undo m rs
      let value := -v
      let best := max best value
      let alpha := max alpha value
      if beta ≤ alpha then ⟨some best, s2, rpolls, hAcc⟩
      else noisy_loop g child ms s2 rpolls best alpha beta hAcc

/-- `Negamaxer::noisy_negamax` (iterative.rs): negamax among noisy moves
only, no transposition-table interaction.  `tick n` is the value of the
timeout `AtomicBool` at its `n`-th load. -/
def noisy_negamax {S M : Type} (g : Game S M) (tick : Nat → Bool) :
    Nat → S → Nat → Evaluation → Evaluation → QRes S
  | depth, s, polls, alpha, beta =>
    if tick polls then ⟨none, s, polls + 1, 0⟩
    else
      let polls := polls + 1
      match g.get_winner s with
      | some w => ⟨some w, s, polls, 0⟩
      | none =>
        match depth with
        | 0 => ⟨some (g.evaluate s), s, polls, 0⟩
        | d + 1 =>
          match g.generate_noisy_moves s with
          | [] => ⟨some (g.evaluate s), s, polls, 0⟩
          | m :: ms =>
            noisy_loop g (noisy_negamax g tick d) (m :: ms) s polls
              WORST_EVAL alpha beta 0

/-- Result of a main negamax call; like `QRes` but also carrying the
transposition table. -/
structure NRes (S M : Type) where
  value : Option Evaluation
  s : S
  tt : TranspositionTable M
  polls : Nat
  height : Nat

/-- Result of the main negamax move loop: `out` is `some (best, best_move)`
on normal completion and `none` when a timeout was propagated. -/
structure LoopRes (S M : Type) where
  out : Option (Evaluation × M)
  s : S
  tt : TranspositionTable M
  polls : Nat
  height : Nat

/-- One child evaluation of the `Negamaxer::negamax` loop body: the
`let value = if null_window { probe / full-search fallback } else { full }`
expression of iterative.rs, with `None` propagation (`?`) keeping the state
as the failing child left it. -/
def negamax_child {S M : Type}
    (child : S → TranspositionTable M → Nat → Evaluation → Evaluation → NRes S M)
    (null_window : Bool) (alpha beta : Evaluation)
    (s : S) (tt : TranspositionTable M) (polls : Nat) : NRes S M :=
  if null_window then
    match child s tt polls (-alpha - 1) (-alpha) with
    | ⟨none, ps, ptt, ppolls, ph⟩ => ⟨none, ps, ptt, ppolls, 1 + ph⟩
    | ⟨some pv, ps, ptt, ppolls, ph⟩ =>
      let probe := -pv
      if alpha < probe ∧ probe < beta then
        match child ps ptt ppolls (-beta) (-probe) with
        | ⟨none, rs, rtt, rpolls, rh⟩ =>
          ⟨none, rs, rtt, rpolls, max (1 + ph) (1 + rh)⟩
        | ⟨some rv, rs, rtt, rpolls, rh⟩ =>
          ⟨some (-rv), rs, rtt, rpolls, max (1 + ph) (1 + rh)⟩
      else ⟨some probe, ps, ptt, ppolls, 1 + ph⟩
  else
    match child s tt polls (-beta) (-alpha) with
    | ⟨none, rs, rtt, rpolls, rh⟩ => ⟨none, rs, rtt, rpolls, 1 + rh⟩
    | ⟨some v, rs, rtt, rpolls, rh⟩ => ⟨some (-v), rs, rtt, rpolls, 1 + rh⟩

/-- The move loop of `Negamaxer::negamax` (iterative.rs).  `nws_opt` is the
`null_window_search` option; `null_window` is the loop-local arming flag.
On a child value: undo the move, update `best`/`best_move` on strict
improvement, raise `alpha` and arm the null window on `value > alpha`, and
break on `alpha ≥ beta`.  A `None` child result is propagated without the
undo, exactly as the Rust `?` does. -/
def negamax_loop {S M : Type} (g : Game S M) (nws_opt : Bool)
    (child : S → TranspositionTable M → Nat → Evaluation → Evaluation → NRes S M) :
    List M → S → TranspositionTable M → Nat → Evaluation → M →
      Evaluation → Evaluation → Bool → Nat → LoopRes S M
  | [], s, tt, polls, best, best_move, _alpha, _beta, _nw, hAcc =>
    ⟨some (best, best_move), s, tt, polls, hAcc⟩
  | m :: ms, s, tt, polls, best, best_move, alpha, beta, null_window, hAcc =>
    match negamax_child child null_window alpha beta (g.apply m s) tt polls with
    | ⟨none, cs, ctt, cpolls, ch⟩ => ⟨none, cs, ctt, cpolls, max hAcc ch⟩
    | ⟨some value, cs, ctt, cpolls, ch⟩ =>
      let hAcc := max hAcc ch
      let s2 := g.undo m cs
      let best2 := if best < value then value else best
      let best_move2 := if best < value then m else best_move
      let alpha2 := if alpha < value then value else alpha
      let null_window2 := if alpha < value then nws_opt else null_window
      if beta ≤ alpha2 then ⟨some (best2, best_move2), s2, ctt, cpolls, hAcc⟩
      else negamax_loop g nws_opt child ms s2 ctt cpolls
        best2 best_move2 alpha2 beta null_window2 hAcc

/-- Move ordering of `Negamaxer::negamax`: scan for the first occurrence of
the predicted good move and swap it to index 0 (no-op when it does not
appear). -/
def reorder_moves {M : Type} [DecidableEq M] (moves : List M)
    (good : Option M) : List M :=
  match good with
  | none => moves
  | some gm =>
    if gm ∈ moves then
      match moves, moves.findIdx (fun x => decide (x = gm)) with
      | [], _ => []
      | l, 0 => l
      | x :: xs, j + 1 => xs.getD j x :: xs.set j x
    else moves

/-- The `depth == 0` case of `Negamaxer::negamax` (iterative.rs): poll the
timeout flag, then hand off to the quiescence search with
`max_quiescence_depth`. -/
def negamax_zero {S M : Type} (g : Game S M) (tick : Nat → Bool) (maxQ : Nat) :
    S → TranspositionTable M → Nat → Evaluation → Evaluation → NRes S M :=
  fun s tt polls alpha beta =>
    if tick polls then ⟨none, s, tt, polls + 1, 0⟩
    else
      match noisy_negamax g tick maxQ s (polls + 1) alpha beta with
      | ⟨v, qs, qpolls, qh⟩ => ⟨v, qs, tt, qpolls, 1 + qh⟩

/-- The `depth = d + 1` case of `Negamaxer::negamax` (iterative.rs), with
`child` the search at depth `d`: poll the timeout flag, check for a winner,
probe the table via `check`, return `WORST_EVAL` on an empty move list (with
no table update), order the predicted good move first, run the move loop,
then store via `update` and return the clamped best.  The `nodes_explored`
statistics counters of the Rust code influence no result and are not
modelled. -/
def negamax_succ {S M : Type} [DecidableEq M] (g : Game S M)
    (tick : Nat → Bool) (nws : Bool) (d : Nat)
    (child : S → TranspositionTable M → Nat → Evaluation → Evaluation → NRes S M) :
    S → TranspositionTable M → Nat → Evaluation → Evaluation → NRes S M :=
  fun s tt polls alpha beta =>
    if tick polls then ⟨none, s, tt, polls + 1, 0⟩
    else
      let polls := polls + 1
      match g.get_winner s with
      | some w => ⟨some w, s, tt, polls, 0⟩
      | none =>
        let alpha_orig := alpha
        let hash := g.zobrist s
        match tt.check hash (d + 1) none alpha beta with
        | (_, _, _, some v) => ⟨some v, s, tt, polls, 0⟩
        | (good_move, alpha, beta, none) =>
          match g.generate_moves s with
          | [] => ⟨some WORST_EVAL, s, tt, polls, 0⟩
          | m0 :: rest =>
            let ordered := reorder_moves (m0 :: rest) good_move
            match negamax_loop g nws child ordered
              s tt polls WORST_EVAL (ordered.headD m0) alpha beta false 0 with
            | ⟨none, rs, rtt, rpolls, rh⟩ => ⟨none, rs, rtt, rpolls, rh⟩
            | ⟨some (best, best_move), rs, rtt, rpolls, rh⟩ =>
              ⟨some (clamp_value best), rs,
                TranspositionTable.update rtt hash alpha_orig beta (d + 1)
                  best best_move, rpolls, rh⟩

/-- `Negamaxer::negamax` (iterative.rs): recursion on the depth argument,
assembled with `Nat.rec` so that the definition evaluates by kernel
reduction; `negamax_zero` and `negamax_succ` are its two cases. -/
def negamax {S M : Type} [DecidableEq M] (g : Game S M) (tick : Nat → Bool)
    (maxQ : Nat) (nws : Bool) :
    Nat → S → TranspositionTable M → Nat → Evaluation → Evaluation → NRes S M :=
  fun depth =>
    @Nat.rec
      (fun _ => S → TranspositionTable M → Nat → Evaluation → Evaluation → NRes S M)
      (negamax_zero g tick maxQ)
      (fun d child => negamax_succ g tick nws d child)
      depth

/-- `i32::saturating_add`. -/
def saturating_add (a b : Int) : Int :=
  max (-(2 ^ 31)) (min (2 ^ 31 - 1) (a + b))

/-- `i32::saturating_sub`. -/
def saturating_sub (a b : Int) : Int :=
  max (-(2 ^ 31)) (min (2 ^ 31 - 1) (a - b))

/-- `Negamaxer::aspiration_search` (iterative.rs): full pass-through below
depth 2, otherwise one negamax around the target window whose value is
discarded (`Option<()>`), while its table stores, state mutations and polls
remain. -/
def aspiration_search {S M : Type} [DecidableEq M] (g : Game S M)
    (tick : Nat → Bool) (maxQ : Nat) (nws : Bool) (depth : Nat) (s : S)
    (tt : TranspositionTable M) (polls : Nat) (target window : Evaluation) :
    Option Unit × S × TranspositionTable M × Nat :=
  if depth < 2 then (some (), s, tt, polls)
  else
    let alpha := max (saturating_sub target window) WORST_EVAL
    let beta := saturating_add target window
    match negamax g tick maxQ nws depth s tt polls alpha beta with
    | ⟨none, rs, rtt, rpolls, _⟩ => (none, rs, rtt, rpolls)
    | ⟨some _, rs, rtt, rpolls, _⟩ => (some (), rs, rtt, rpolls)

/-- `IterativeOptions` (iterative.rs).  `step_increment` is `1` or `2` in the
Rust API (`new` sets 1, `with_double_step_increment` sets 2). -/
structure IterativeOptions where
  table_byte_size : Nat
  strategy : Replacement
  null_window_search : Bool
  aspiration_window : Option Evaluation
  step_increment : Nat
  max_quiescence_depth : Nat

/-- `IterativeOptions::new` (the defaults). -/
def IterativeOptions.new : IterativeOptions :=
  { table_byte_size := 1000000
  , strategy := Replacement.TwoTier
  , null_window_search := true
  , aspiration_window := none
  , step_increment := 1
  , max_quiescence_depth := 0 }

/-- Outcome of `IterativeSearch::choose_move`, instrumented for the claims:
`panicked` records whether `table.lookup(root_hash).unwrap()` was reached
with no entry present (a Rust panic); `searched` lists the depth argument of
each root `negamax` invocation the loop performed; `best_move` and
`prev_value` are the driver fields on return. -/
structure ChooseRes (M : Type) where
  panicked : Bool
  best_move : Option M
  prev_value : Evaluation
  table : TranspositionTable M
  searched : List Nat
  polls : Nat

/-- The iterative-deepening loop of `IterativeSearch::choose_move`
(iterative.rs, lines 476–494).  `m8` is `self.max_depth as u8` and `depth`
the `u8` loop variable.  `fuel` makes the recursion well-founded; it is
chosen large enough (`m8 + 1` at the top call) that it never runs out for
the Rust-reachable `step ∈ {1, 2}` as long as `depth + step` stays within
`u8` range (at `max_depth % 256 ≥ 255 - step` the Rust `u8` increment would
wrap — in debug builds a panic — which is outside this model).  The
`populate_pv` call only rebuilds the advisory PV vector and, per spec §4.1,
restores the state it walks; no claim consults the PV, so it is not
modelled. -/
def choose_move_loop {S M : Type} [DecidableEq M] (g : Game S M)
    (opts : IterativeOptions) (tick : Nat → Bool) (root_hash : Nat)
    (m8 : Nat) :
    Nat → Nat → S → TranspositionTable M → Nat → Option M → Evaluation →
      List Nat → ChooseRes M
  | 0, _, _, tt, polls, best_move, prev_value, searched =>
    ⟨false, best_move, prev_value, tt, searched, polls⟩
  | fuel + 1, depth, s, tt, polls, best_move, prev_value, searched =>
    if m8 < depth then ⟨false, best_move, prev_value, tt, searched, polls⟩
    else
      match
        match opts.aspiration_window with
        | none => (s, tt, polls)
        | some window =>
          match aspiration_search g tick opts.max_quiescence_depth
            opts.null_window_search (depth + 1) s tt polls prev_value window with
          | (_, as0, att, apolls) => (as0, att, apolls)
      with
      | (s, tt, polls) =>
        let searched := searched ++ [depth + 1]
        match negamax g tick opts.max_quiescence_depth
          opts.null_window_search (depth + 1) s tt polls WORST_EVAL BEST_EVAL with
        | ⟨none, _, rtt, rpolls, _⟩ =>
          ⟨false, best_move, prev_value, rtt, searched, rpolls⟩
        | ⟨some _, rs, rtt, rpolls, _⟩ =>
          match rtt.lookup root_hash with
          | none => ⟨true, best_move, prev_value, rtt, searched, rpolls⟩
          | some entry =>
            choose_move_loop g opts tick root_hash m8 fuel
              (depth + opts.step_increment) rs rtt rpolls
              entry.best_move entry.value searched

/-- `IterativeSearch::choose_move` (iterative.rs) on a searcher whose table
is `tt` and whose previous root value is `prev_value`.  `max_time_zero`
states whether `max_time == Duration::new(0, 0)` (depth-bounded mode);
`timer` gives the value the timeout `AtomicBool` set by `timeout_signal`
would show at each poll, and is consulted only when a timer is installed.
`max_depth as u8` is the explicit truncation `max_depth % 256`. -/
def choose_move {S M : Type} [DecidableEq M] (g : Game S M)
    (opts : IterativeOptions) (max_depth : Nat) (max_time_zero : Bool)
    (timer : Nat → Bool) (tt : TranspositionTable M)
    (prev_value : Evaluation) (s : S) : ChooseRes M :=
  let tt := tt.advance_generation
  let tick := if max_time_zero then (fun _ => false) else timer
  let root_hash := g.zobrist s
  let m8 := max_depth % 256
  let depth0 := m8 % opts.step_increment
  choose_move_loop g opts tick root_hash m8 (m8 + 1) depth0 s tt 0 none
    prev_value []

/-- A freshly constructed serial searcher (`IterativeSearch::new` +
`set_max_depth`): a new table from the options and `prev_value = 0`;
`set_max_depth` puts the driver in depth-bounded mode (`max_time` zero).
`entry_size` stands for `size_of::<Entry<M>>()`. -/
def choose_move_fresh {S M : Type} [DecidableEq M] (g : Game S M)
    (entry_size : Nat) (opts : IterativeOptions) (max_depth : Nat)
    (timer : Nat → Bool) (s : S) : ChooseRes M :=
  choose_move g opts max_depth true timer
    (TranspositionTable.new M entry_size opts.table_byte_size opts.strategy)
    0 s

/-- `YbwOptions` (ybw.rs). -/
structure YbwOptions where
  table_byte_size : Nat
  null_window_search : Bool
  step_increment : Nat
  max_quiescence_depth : Nat
  serial_cutoff_depth : Nat

/-- `YbwOptions::new` (the defaults). -/
def YbwOptions.new : YbwOptions :=
  { table_byte_size := 32000000
  , null_window_search := true
  , step_increment := 1
  , max_quiescence_depth := 0
  , serial_cutoff_depth := 1 }

/-- Result of a `ParallelYbw::negamax` call under the sequential schedule
(see `ybw_negamax`).  `dispatched` records, for every parallel fan-out the
call performed, the full list of moves handed to `par_iter`. -/
structure YRes (S M : Type) where
  value : Option Evaluation
  s : S
  tt : TranspositionTable M
  polls : Nat
  dispatched : List (List M)

/-- Like `LoopRes` for the sequential-continuation branch of
`ParallelYbw::negamax`, carrying the fan-out record. -/
structure YLoopRes (S M : Type) where
  out : Option (Evaluation × M)
  s : S
  tt : TranspositionTable M
  polls : Nat
  dispatched : List (List M)

/-- One child evaluation of the serial-continuation loop of
`ParallelYbw::negamax` (ybw.rs lines 270–281); identical in shape to the
serial searcher's `negamax_child`. -/
def ybw_child {S M : Type}
    (child : S → TranspositionTable M → Nat → List (List M) →
      Evaluation → Evaluation → YRes S M)
    (null_window : Bool) (alpha beta : Evaluation)
    (s : S) (tt : TranspositionTable M) (polls : Nat)
    (dAcc : List (List M)) : YRes S M :=
  if null_window then
    match child s tt polls dAcc (-alpha - 1) (-alpha) with
    | ⟨none, ps, ptt, ppolls, pd⟩ => ⟨none, ps, ptt, ppolls, pd⟩
    | ⟨some pv, ps, ptt, ppolls, pd⟩ =>
      let probe := -pv
      if alpha < probe ∧ probe < beta then
        match child ps ptt ppolls pd (-beta) (-probe) with
        | ⟨none, rs, rtt, rpolls, rd⟩ => ⟨none, rs, rtt, rpolls, rd⟩
        | ⟨some rv, rs, rtt, rpolls, rd⟩ => ⟨some (-rv), rs, rtt, rpolls, rd⟩
      else ⟨some probe, ps, ptt, ppolls, pd⟩
  else
    match child s tt polls dAcc (-beta) (-alpha) with
    | ⟨none, rs, rtt, rpolls, rd⟩ => ⟨none, rs, rtt, rpolls, rd⟩
    | ⟨some v, rs, rtt, rpolls, rd⟩ => ⟨some (-v), rs, rtt, rpolls, rd⟩

/-- The serial-continuation loop of `ParallelYbw::negamax` (ybw.rs lines
261–297): identical to the serial searcher's loop except that the already
searched `first_move` is skipped with `continue`. -/
def ybw_serial_loop {S M : Type} [DecidableEq M] (g : Game S M)
    (nws_opt : Bool)
    (child : S → TranspositionTable M → Nat → List (List M) →
      Evaluation → Evaluation → YRes S M) (first_move : M) :
    List M → S → TranspositionTable M → Nat → List (List M) → Evaluation →
      M → Evaluation → Evaluation → Bool → YLoopRes S M
  | [], s, tt, polls, dAcc, best, best_move, _alpha, _beta, _nw =>
    ⟨some (best, best_move), s, tt, polls, dAcc⟩
  | m :: ms, s, tt, polls, dAcc, best, best_move, alpha, beta, null_window =>
    if m = first_move then
      ybw_serial_loop g nws_opt child first_move ms s tt polls dAcc
        best best_move alpha beta null_window
    else
      match ybw_child child null_window alpha beta (g.apply m s) tt polls dAcc with
      | ⟨none, cs, ctt, cpolls, cd⟩ => ⟨none, cs, ctt, cpolls, cd⟩
      | ⟨some value, cs, ctt, cpolls, cd⟩ =>
        let s2 := g.undo m cs
        let best2 := if best < value then value else best
        let best_move2 := if best < value then m else best_move
        let alpha2 := if alpha < value then value else alpha
        let null_window2 := if alpha < value then nws_opt else null_window
        if beta ≤ alpha2 then
          ⟨some (best2, best_move2), s2, ctt, cpolls, cd⟩
        else ybw_serial_loop g nws_opt child first_move ms s2 ctt cpolls
          cd best2 best_move2 alpha2 beta null_window2

/-- The parallel region of `ParallelYbw::negamax` (ybw.rs lines 298–333,
`moves.par_iter().with_max_len(1).try_for_each(...)`), executed under the
sequential schedule that runs the rayon tasks one at a time in move order;
which moves are handed to the region — the property the claims concern — is
the same under every schedule.  The shared atomic `alpha` and the mutexed
best record `(value, move)` become threaded values; `ValueMove::max`
(`util.rs`, not among the sources) is modelled from the spec:
"updates the best record under the mutex (strictly-greater tie-break
preserved)".  Returns `(region completed without a None, …)`. -/
def ybw_par_tasks {S M : Type} (g : Game S M) (nws_opt : Bool)
    (child : S → TranspositionTable M → Nat → List (List M) →
      Evaluation → Evaluation → YRes S M)
    (sRoot : S) (alpha_orig beta : Evaluation) :
    List M → TranspositionTable M → Nat → List (List M) → Evaluation →
      Evaluation × M →
      Bool × TranspositionTable M × Nat × List (List M) × Evaluation × (Evaluation × M)
  | [], tt, polls, dAcc, alphaA, bests => (true, tt, polls, dAcc, alphaA, bests)
  | m :: ms, tt, polls, dAcc, alphaA, bests =>
    let initial_alpha := alphaA
    if beta ≤ initial_alpha then (false, tt, polls, dAcc, alphaA, bests)
    else
      let state := g.apply m sRoot
      match
        if nws_opt ∧ alpha_orig < initial_alpha then
          match child state tt polls dAcc (-initial_alpha - 1) (-initial_alpha) with
          | ⟨none, _, ptt, ppolls, pd⟩ => (none, ptt, ppolls, pd)
          | ⟨some pv, ps, ptt, ppolls, pd⟩ =>
            let probe := -pv
            if initial_alpha < probe ∧ probe < beta then
              if beta ≤ alphaA then (none, ptt, ppolls, pd)
              else
                match child ps ptt ppolls pd (-beta) (-probe) with
                | ⟨none, _, rtt, rpolls, rd⟩ => (none, rtt, rpolls, rd)
                | ⟨some rv, _, rtt, rpolls, rd⟩ => (some (-rv), rtt, rpolls, rd)
            else (some probe, ptt, ppolls, pd)
        else
          match child state tt polls dAcc (-beta) (-initial_alpha) with
          | ⟨none, _, rtt, rpolls, rd⟩ => (none, rtt, rpolls, rd)
          | ⟨some v, _, rtt, rpolls, rd⟩ => (some (-v), rtt, rpolls, rd)
      with
      | (none, tt2, polls2, dAcc2) => (false, tt2, polls2, dAcc2, alphaA, bests)
      | (some value, tt2, polls2, dAcc2) =>
        let alphaA2 := max alphaA value
        let bests2 := if bests.1 < value then (value, m) else bests
        ybw_par_tasks g nws_opt child sRoot alpha_orig beta ms tt2 polls2
          dAcc2 alphaA2 bests2

/-- `ParallelYbw::negamax` (ybw.rs) under the sequential schedule of
`ybw_par_tasks`.  The first child — `good_move.unwrap_or(moves[0])` — is
searched serially with the full window; on `α ≥ β` the search is skipped;
at `depth ≤ serial_cutoff_depth` the remaining moves are searched
sequentially; otherwise the parallel region is entered, and the move list
handed to it is recorded in `dispatched`.  `ConcurrentTable` lives in
`table.rs`, which is not among the sources; modelled from the spec, it
shares the single-owner table's contract (`check`, and `concurrent_update`
behaving as `update`), so the serial table model is reused.  The ybw.rs
`noisy_negamax` is line-for-line the serial searcher's (minus the move
pool), so `noisy_negamax` embeds both.  This is the `depth == 0` case: poll
the timeout flag, then hand off to the quiescence search. -/
def ybw_negamax_zero {S M : Type} (g : Game S M) (tick : Nat → Bool)
    (opts : YbwOptions) :
    S → TranspositionTable M → Nat → List (List M) →
      Evaluation → Evaluation → YRes S M :=
  fun s tt polls dAcc alpha beta =>
    if tick polls then ⟨none, s, tt, polls + 1, dAcc⟩
    else
      match noisy_negamax g tick opts.max_quiescence_depth s (polls + 1)
        alpha beta with
      | ⟨v, qs, qpolls, _⟩ => ⟨v, qs, tt, qpolls, dAcc⟩

/-- The `depth = d + 1` case of `ParallelYbw::negamax`; see `ybw_negamax`. -/
def ybw_negamax_succ {S M : Type} [DecidableEq M] (g : Game S M)
    (tick : Nat → Bool) (opts : YbwOptions) (d : Nat)
    (child : S → TranspositionTable M → Nat → List (List M) →
      Evaluation → Evaluation → YRes S M) :
    S → TranspositionTable M → Nat → List (List M) →
      Evaluation → Evaluation → YRes S M :=
  fun s tt polls dAcc alpha beta =>
    if tick polls then ⟨none, s, tt, polls + 1, dAcc⟩
    else
      let polls := polls + 1
      match g.get_winner s with
        | some w => ⟨some w, s, tt, polls, dAcc⟩
        | none =>
          let alpha_orig := alpha
          let hash := g.zobrist s
          match tt.check hash (d + 1) none alpha beta with
          | (_, _, _, some v) => ⟨some v, s, tt, polls, dAcc⟩
          | (good_move, alpha, beta, none) =>
            match g.generate_moves s with
            | [] => ⟨some WORST_EVAL, s, tt, polls, dAcc⟩
            | m0 :: rest =>
              let moves := m0 :: rest
              let first_move := good_move.getD m0
              match child (g.apply first_move s) tt
                polls dAcc (-beta) (-alpha) with
              | ⟨none, r0s, r0tt, r0polls, r0d⟩ => ⟨none, r0s, r0tt, r0polls, r0d⟩
              | ⟨some iv0, r0s, r0tt, r0polls, r0d⟩ =>
                let initial_value := -iv0
                let s := g.undo first_move r0s
                let alpha := max alpha initial_value
                match
                  if beta ≤ alpha then
                    (some (initial_value, first_move), s, r0tt, r0polls, r0d)
                  else if d + 1 ≤ opts.serial_cutoff_depth then
                    match ybw_serial_loop g opts.null_window_search
                      child first_move moves s r0tt
                      r0polls r0d initial_value first_move alpha
                      beta false with
                    | ⟨out, ls, ltt, lpolls, ld⟩ => (out, ls, ltt, lpolls, ld)
                  else
                    match ybw_par_tasks g opts.null_window_search
                      child s alpha_orig beta moves
                      r0tt r0polls (r0d ++ [moves]) alpha
                      (initial_value, first_move) with
                    | (ok, tt2, polls2, dAcc2, _, bests) =>
                      if ok then (some bests, s, tt2, polls2, dAcc2)
                      else if tick polls2 then
                        (none, s, tt2, polls2 + 1, dAcc2)
                      else (some bests, s, tt2, polls2 + 1, dAcc2)
                with
                | (none, s2, tt2, polls2, dAcc2) => ⟨none, s2, tt2, polls2, dAcc2⟩
                | (some (best, best_move), s2, tt2, polls2, dAcc2) =>
                  ⟨some (clamp_value best), s2,
                    TranspositionTable.update tt2 hash alpha_orig beta (d + 1)
                      best best_move, polls2, dAcc2⟩

/-- `ParallelYbw::negamax` (ybw.rs): recursion on the depth argument,
assembled with `Nat.rec` so that the definition evaluates by kernel
reduction; `ybw_negamax_zero` and `ybw_negamax_succ` are its two cases. -/
def ybw_negamax {S M : Type} [DecidableEq M] (g : Game S M)
    (tick : Nat → Bool) (opts : YbwOptions) :
    Nat → S → TranspositionTable M → Nat → List (List M) →
      Evaluation → Evaluation → YRes S M :=
  fun depth =>
    @Nat.rec
      (fun _ => S → TranspositionTable M → Nat → List (List M) →
        Evaluation → Evaluation → YRes S M)
      (ybw_negamax_zero g tick opts)
      (fun d child => ybw_negamax_succ g tick opts d child)
      depth

/-! ### Concrete game instances used by individual claims -/

/-- A state with no legal moves and a nonzero position hash: the smallest
input on which the driver hits the `lookup(root_hash).unwrap()` line with an
absent entry. -/
def stuck_game : Game Unit Unit :=
  { generate_moves := fun _ => []
  , generate_noisy_moves := fun _ => []
  , get_winner := fun _ => none
  , apply := fun _ s => s
  , undo := fun _ s => s
  , zobrist := fun _ => 7
  , evaluate := fun _ => 0 }

/-- A one-move game whose `apply` genuinely changes the state (`+1`) and
whose `undo` reverses it; used to exhibit the state left mutated when a
timeout propagates. -/
def step_game : Game Int Unit :=
  { generate_moves := fun _ => [()]
  , generate_noisy_moves := fun _ => []
  , get_winner := fun _ => none
  , apply := fun _ s => s + 1
  , undo := fun _ s => s - 1
  , zobrist := fun s => s.toNat + 1
  , evaluate := fun s => s }

/-- A two-move game (`+1` and `+2`) for the parallel fan-out claim. -/
def duo_game : Game Int Nat :=
  { generate_moves := fun _ => [1, 2]
  , generate_noisy_moves := fun _ => []
  , get_winner := fun _ => none
  , apply := fun m s => s + m
  , undo := fun m s => s - m
  , zobrist := fun s => s.toNat + 1
  , evaluate := fun s => s }

/-- Evaluations (indexed by position) of the game refuting the null-window
equivalence claim. -/
def cex_eval : List Int := [-1, -6, -9, 11, 8, 3, 0, -5, -8, 12, 9, 4, 1]

/-- Position of the counterexample game: the sum of the moves played. -/
def cex_pos (s : List Nat) : Nat := s.foldl (fun a b => a + b) 0

/-- The counterexample game for the null-window equivalence claim: states
are move histories, the position is their sum (so the same position recurs
at different remaining depths), the hash is injective on positions, and all
evaluations lie strictly inside `(WORST_EVAL, BEST_EVAL)`. -/
def cex_game : Game (List Nat) Nat :=
  { generate_moves := fun s => if cex_pos s % 3 = 0 then [1, 2, 3] else [1, 3]
  , generate_noisy_moves := fun _ => []
  , get_winner := fun _ => none
  , apply := fun m s => m :: s
  , undo := fun _ s => s.tail
  , zobrist := fun s => 1 + cex_pos s
  , evaluate := fun s => cex_eval.getD (cex_pos s) 0 }

/-- A fresh 4-slot `TwoTier` table (`64 / 16` entries) over `Nat` moves. -/
def cex_tt : TranspositionTable Nat :=
  TranspositionTable.new Nat 16 64 Replacement.TwoTier

/-- A fresh 4-slot `TwoTier` table over `Unit` moves. -/
def tt4u : TranspositionTable Unit :=
  TranspositionTable.new Unit 16 64 Replacement.TwoTier

/-- A `TwoTier` table built with `table_byte_size` equal to the entry size:
the quotient is 1, so the vector has a single slot. -/
def tt1u : TranspositionTable Unit :=
  TranspositionTable.new Unit 16 16 Replacement.TwoTier

/-- The exact (unpruned) value of the move list of a quiescence node: the
maximum over the children of the negated child value, folded from
`WORST_EVAL` exactly as the loop's `best` accumulator is. -/
def noisy_best {S M : Type} (g : Game S M) (child : S → Evaluation) (s : S) :
    List M → Evaluation
  | [] => WORST_EVAL
  | m :: ms => max (-(child (g.apply m s))) (noisy_best g child s ms)

/-- The exact (unpruned) value computed by `noisy_negamax` without a window:
winner evaluation at terminal states, the static evaluation at depth 0 or at
quiet positions, and otherwise the maximum over noisy children of the
negated child value.  This is the reference the fail-soft bounds of
`noisy_negamax` are stated against. -/
def noisy_true {S M : Type} (g : Game S M) : Nat → S → Evaluation :=
  fun depth =>
    @Nat.rec (fun _ => S → Evaluation)
      (fun s =>
        match g.get_winner s with
        | some w => w
        | none => g.evaluate s)
      (fun _ child s =>
        match g.get_winner s with
        | some w => w
        | none =>
          match g.generate_noisy_moves s with
          | [] => g.evaluate s
          | m :: ms => noisy_best g child s (m :: ms))
      depth

/-- A small game with all evaluations constant (hence strictly inside the
sentinels) used to instantiate the depth-1 null-window equivalence: states
are integers, moves add to the state and undo subtracts. -/
def bnd_game : Game Int Nat :=
  { generate_moves := fun _ => [1, 2]
  , generate_noisy_moves := fun _ => []
  , get_winner := fun _ => none
  , apply := fun m s => s + m
  , undo := fun m s => s - m
  , zobrist := fun s => s.toNat + 1
  , evaluate := fun _ => 3 }

/-! ### Helper lemmas -/

open TranspositionTable

theorem npt_go_pow (n : Nat) :
    ∀ f j : Nat, ∃ k, npt_go n f (2 ^ j) = 2 ^ k := by
  intro f
  induction f with
  | zero => exact fun j => ⟨j, rfl⟩
  | succ f ih =>
    intro j
    by_cases h : n ≤ 2 ^ j
    · exact ⟨j, by simp [npt_go, h]⟩
    · have h2 : (2 : Nat) * 2 ^ j = 2 ^ (j + 1) := by ring
      simpa [npt_go, h, h2] using ih (j + 1)

theorem le_npt_go (n : Nat) :
    ∀ f acc : Nat, n ≤ acc * 2 ^ f → n ≤ npt_go n f acc := by
  intro f
  induction f with
  | zero => intro acc h; simpa [npt_go] using h
  | succ f ih =>
    intro acc h
    by_cases hle : n ≤ acc
    · simp [npt_go, hle]
    · have h2 : n ≤ 2 * acc * 2 ^ f := by
        calc n ≤ acc * 2 ^ (f + 1) := h
        _ = 2 * acc * 2 ^ f := by ring
      simpa [npt_go, hle] using ih (2 * acc) h2

theorem next_power_of_two_pow (n : Nat) :
    ∃ k, next_power_of_two n = 2 ^ k := by
  have h := npt_go_pow n n 0
  simpa [next_power_of_two] using h

theorem le_next_power_of_two (n : Nat) : n ≤ next_power_of_two n := by
  refine le_npt_go n n 1 ?_
  simpa using Nat.le_of_lt (Nat.lt_two_pow n)

theorem getD_replicate {α : Type} (n i : Nat) (a : α) :
    (List.replicate n a).getD i a = a := by
  rcases Nat.lt_or_ge i n with h | h
  · simp [List.getD_eq_getElem?_getD, List.getElem?_replicate, h]
  · simp [List.getD_eq_getElem?_getD, List.getElem?_eq_none, h]

theorem getD_set_self {α : Type} (l : List α) (i : Nat) (a d : α)
    (h : i < l.length) : (l.set i a).getD i d = a := by
  simp [List.getD_eq_getElem?_getD, List.getElem?_set_self, h]

theorem advance_iter_fields {M : Type} (gens : Nat) :
    ∀ t : TranspositionTable M,
      ((@advance_generation M)^[gens] t).table = t.table ∧
      ((@advance_generation M)^[gens] t).mask = t.mask ∧
      ((@advance_generation M)^[gens] t).strategy = t.strategy := by
  induction gens with
  | zero => exact fun t => ⟨rfl, rfl, rfl⟩
  | succ gens ih =>
    intro t
    have h := ih (advance_generation t)
    simpa [Function.iterate_succ_apply, advance_generation] using h

/-- On any table whose indexed slot holds the all-zero entry, `store` writes
the new entry into the primary slot under every replacement strategy,
because the occupant's depth `0` is at most the incoming depth. -/
theorem store_on_empty_slot {M : Type} (t : TranspositionTable M) (h : Nat)
    (v : Evaluation) (d : Nat) (flag : EntryFlag) (m : M)
    (hocc : t.table.getD (h &&& t.mask) (emptyEntry M) = emptyEntry M) :
    store t h v d flag m =
      { t with table := t.table.set (h &&& t.mask) (Entry.mk h v d flag t.generation (some m)) } := by
  unfold store
  simp only [List.getD_eq_getElem?_getD] at hocc
  rcases hstrat : t.strategy with _ | _ | _ <;>
    simp [hstrat, hocc, Nat.zero_le, show (emptyEntry M).depth = 0 from rfl]

/-- `lookup` returns the primary-slot entry whenever its full hash
matches. -/
theorem lookup_hit {M : Type} (t : TranspositionTable M) (h : Nat)
    (e : Entry M) (he : t.table.getD (h &&& t.mask) (emptyEntry M) = e)
    (hh : e.hash = h) : lookup t h = some e := by
  show (if h = (t.table.getD (h &&& t.mask) (emptyEntry M)).hash
    then some (t.table.getD (h &&& t.mask) (emptyEntry M))
    else _) = some e
  rw [he, hh]
  simp

/-- C4: after `store(h, v, d, flag, m)` on an otherwise-empty transposition
table (freshly constructed, after any number of generation advances),
`lookup(h)` returns an entry carrying exactly the stored hash, value, depth,
flag and best move, stamped with the table's current generation — for every
replacement strategy. -/
theorem C4_tt_round_trip {M : Type} (entry_size table_byte_size gens : Nat)
    (strategy : Replacement) (h : Nat) (v : Evaluation) (d : Nat)
    (flag : EntryFlag) (m : M) :
    lookup
      (store ((@advance_generation M)^[gens]
          (new M entry_size table_byte_size strategy)) h v d flag m) h =
      some (Entry.mk h v d flag ((@advance_generation M)^[gens] (new M entry_size table_byte_size strategy)).generation (some m)) := by
  set t0 := new M entry_size table_byte_size strategy with ht0
  set t := (@advance_generation M)^[gens] t0 with ht
  obtain ⟨htab, hmask, _⟩ := advance_iter_fields gens t0
  have htab2 : t.table =
      List.replicate (next_power_of_two (table_byte_size / entry_size))
        (emptyEntry M) := by
    rw [← ht] at htab; rw [htab, ht0]; rfl
  have hocc : t.table.getD (h &&& t.mask) (emptyEntry M) = emptyEntry M := by
    rw [htab2]; exact getD_replicate _ _ _
  rw [store_on_empty_slot t h v d flag m hocc]
  have hlen : (h &&& t.mask) <
      (List.replicate (next_power_of_two (table_byte_size / entry_size))
        (emptyEntry M) : List (Entry M)).length := by
    obtain ⟨k, hk⟩ := next_power_of_two_pow (table_byte_size / entry_size)
    have hmle : t.mask ≤ next_power_of_two (table_byte_size / entry_size) - 1 := by
      rw [← ht] at hmask
      rw [hmask, ht0]
      show (if strategy = Replacement.TwoTier
        then (next_power_of_two (table_byte_size / entry_size) - 1) &&& usizeNotOne
        else next_power_of_two (table_byte_size / entry_size) - 1) ≤ _
      split
      · exact Nat.and_le_left
      · exact Nat.le_refl _
    have hidx : (h &&& t.mask) ≤
        next_power_of_two (table_byte_size / entry_size) - 1 :=
      Nat.le_trans Nat.and_le_right hmle
    have hpos : 0 < next_power_of_two (table_byte_size / entry_size) := by
      rw [hk]; exact Nat.pos_pow_of_pos k (by omega)
    simpa [List.length_replicate] using Nat.lt_of_le_of_lt hidx (by omega)
  refine lookup_hit _ h _ ?_ rfl
  have hlen2 : h &&& t.mask < t.table.length := by
    rw [htab2]; simpa using hlen
  exact getD_set_self _ _ _ _ hlen2

/-- C5: the replacement semantics of `store`, and the probe order of the
`TwoTier` `lookup`.  `Always` overwrites the indexed slot unconditionally;
`DepthPreferred` overwrites exactly when the occupant is of a different
(older, modulo the 8-bit wrap) generation or its depth is at most the
incoming depth, and otherwise leaves the table unchanged; `TwoTier`
overwrites the primary slot of the pair under the same condition and
otherwise the secondary slot `index + 1`; `TwoTier` `lookup` probes the
primary slot first and the secondary slot second. -/
theorem C5_replacement_semantics {M : Type} (t : TranspositionTable M)
    (h : Nat) (v : Evaluation) (d : Nat) (flag : EntryFlag) (m : M) :
    (t.strategy = Replacement.Always →
      store t h v d flag m =
        { t with table := t.table.set (h &&& t.mask) (Entry.mk h v d flag t.generation (some m)) }) ∧
    (t.strategy = Replacement.DepthPreferred →
      (((t.table.getD (h &&& t.mask) (emptyEntry M)).generation ≠ t.generation ∨
          (t.table.getD (h &&& t.mask) (emptyEntry M)).depth ≤ d) →
        store t h v d flag m =
          { t with table := t.table.set (h &&& t.mask) (Entry.mk h v d flag t.generation (some m)) }) ∧
      (¬((t.table.getD (h &&& t.mask) (emptyEntry M)).generation ≠ t.generation ∨
          (t.table.getD (h &&& t.mask) (emptyEntry M)).depth ≤ d) →
        store t h v d flag m = t)) ∧
    (t.strategy = Replacement.TwoTier →
      (((t.table.getD (h &&& t.mask) (emptyEntry M)).generation ≠ t.generation ∨
          (t.table.getD (h &&& t.mask) (emptyEntry M)).depth ≤ d) →
        store t h v d flag m =
          { t with table := t.table.set (h &&& t.mask) (Entry.mk h v d flag t.generation (some m)) }) ∧
      (¬((t.table.getD (h &&& t.mask) (emptyEntry M)).generation ≠ t.generation ∨
          (t.table.getD (h &&& t.mask) (emptyEntry M)).depth ≤ d) →
        store t h v d flag m =
          { t with table := t.table.set ((h &&& t.mask) + 1) (Entry.mk h v d flag t.generation (some m)) })) ∧
    (t.strategy = Replacement.TwoTier →
      lookup t h =
        if h = (t.table.getD (h &&& t.mask) (emptyEntry M)).hash
        then some (t.table.getD (h &&& t.mask) (emptyEntry M))
        else if h = (t.table.getD ((h &&& t.mask) + 1) (emptyEntry M)).hash
        then some (t.table.getD ((h &&& t.mask) + 1) (emptyEntry M))
        else none) := by
  refine ⟨fun hs => ?_, fun hs => ⟨fun hc => ?_, fun hc => ?_⟩,
    fun hs => ⟨fun hc => ?_, fun hc => ?_⟩, fun hs => ?_⟩
  · unfold store; simp [hs]
  · unfold store
    simp only [List.getD_eq_getElem?_getD] at hc
    simp [hs, hc]
  · unfold store
    simp only [List.getD_eq_getElem?_getD] at hc
    simp [hs, hc]
  · unfold store
    simp only [List.getD_eq_getElem?_getD] at hc
    simp [hs, hc]
  · unfold store
    simp only [List.getD_eq_getElem?_getD] at hc
    simp [hs, hc]
  · unfold lookup
    simp [hs]

theorem C5_replacement_semantics_witness :
    store tt4u 5 7 3 EntryFlag.Exact () =
      { tt4u with table := tt4u.table.set 0 (Entry.mk 5 7 3 EntryFlag.Exact tt4u.generation (some ())) } :=
  ((C5_replacement_semantics tt4u 5 7 3 EntryFlag.Exact ()).2.2.1
    (by decide)).1 (by decide)

/-- The index of a hash under the `TwoTier` mask always has a clear low bit:
the mask is intersected with `!1`. -/
theorem twotier_index_even (size h : Nat) :
    (h &&& ((size - 1) &&& usizeNotOne)) % 2 = 0 := by
  have h1 : usizeNotOne &&& 1 = 0 := by decide
  have h2 : ((size - 1) &&& usizeNotOne) &&& 1 = 0 := by
    rw [Nat.land_assoc, h1, Nat.and_zero]
  calc (h &&& ((size - 1) &&& usizeNotOne)) % 2
      = (h &&& ((size - 1) &&& usizeNotOne)) &&& 1 :=
        (Nat.and_one_is_mod _).symm
    _ = h &&& (((size - 1) &&& usizeNotOne) &&& 1) := Nat.land_assoc h _ 1
    _ = 0 := by rw [h2, Nat.and_zero]

/-- C6 counterexample: the claim admits `table_byte_size = sizeof(Entry)`
(here both 16), for which the `TwoTier` table has a single slot; `lookup`
of a hash that misses the primary slot computes the secondary index `1`,
which is not within the bounds of the one-element vector (in Rust,
`self.table[index + 1]` panics). -/
theorem C6_counterexample :
    tt1u.strategy = Replacement.TwoTier ∧
    tt1u.table.length = 1 ∧
    lookupIndices tt1u 5 = [0, 1] ∧
    ¬(∀ i ∈ lookupIndices tt1u 5, i < tt1u.table.length) := by decide

/-- Every index `lookup` accesses is the primary index `hash &&& mask`, or
its successor under the `TwoTier` strategy. -/
theorem lookupIndices_subset {M : Type} (t : TranspositionTable M) (h : Nat) :
    ∀ i ∈ lookupIndices t h,
      i = (h &&& t.mask) ∨
        (t.strategy = Replacement.TwoTier ∧ i = (h &&& t.mask) + 1) := by
  intro i hi
  simp only [lookupIndices] at hi
  split at hi
  · simp at hi; exact Or.inl hi
  · split at hi
    · rcases (by simpa using hi : i = (h &&& t.mask) ∨ i = (h &&& t.mask) + 1)
        with h1 | h1
      · exact Or.inl h1
      · exact Or.inr ⟨by assumption, h1⟩
    · simp at hi; exact Or.inl hi

/-- Every index `store` accesses is the primary index `hash &&& mask`, or
its successor under the `TwoTier` strategy. -/
theorem storeIndices_subset {M : Type} (t : TranspositionTable M) (h d : Nat) :
    ∀ i ∈ storeIndices t h d,
      i = (h &&& t.mask) ∨
        (t.strategy = Replacement.TwoTier ∧ i = (h &&& t.mask) + 1) := by
  intro i hi
  simp only [storeIndices] at hi
  split at hi
  · simp at hi; exact Or.inl hi
  · simp at hi; exact Or.inl hi
  · split at hi
    · simp at hi; exact Or.inl hi
    · rcases (by simpa using hi : i = (h &&& t.mask) ∨ i = (h &&& t.mask) + 1)
        with h1 | h1
      · exact Or.inl h1
      · exact Or.inr ⟨by assumption, h1⟩

/-- C6 (amended): the constructed table's length is a power of two at least
`⌊table_byte_size / sizeof(Entry)⌋`; every vector index computed by `lookup`
and `store` is within the bounds of the table vector for the `Always` and
`DepthPreferred` strategies at every `table_byte_size`, and — for every
strategy, including the `TwoTier` secondary index `index + 1` — whenever
`⌊table_byte_size / sizeof(Entry)⌋ ≥ 2`, so that the table has at least two
slots.  With a single slot the `TwoTier` secondary index is out of bounds,
which is what the counterexample exhibits; the claim as stated, quantifying
over every `table_byte_size ≥ sizeof(Entry)`, is therefore false for
`TwoTier`. -/
theorem C6_table_size_and_index_bounds {M : Type}
    (entry_size table_byte_size : Nat) (strategy : Replacement) :
    (∃ k,
      (new M entry_size table_byte_size strategy).table.length = 2 ^ k) ∧
    table_byte_size / entry_size ≤
      (new M entry_size table_byte_size strategy).table.length ∧
    (strategy ≠ Replacement.TwoTier → ∀ h d : Nat,
      (∀ i ∈ lookupIndices (new M entry_size table_byte_size strategy) h,
        i < (new M entry_size table_byte_size strategy).table.length) ∧
      (∀ i ∈ storeIndices (new M entry_size table_byte_size strategy) h d,
        i < (new M entry_size table_byte_size strategy).table.length)) ∧
    (2 ≤ table_byte_size / entry_size → ∀ h d : Nat,
      (∀ i ∈ lookupIndices (new M entry_size table_byte_size strategy) h,
        i < (new M entry_size table_byte_size strategy).table.length) ∧
      (∀ i ∈ storeIndices (new M entry_size table_byte_size strategy) h d,
        i < (new M entry_size table_byte_size strategy).table.length)) := by
  set q := table_byte_size / entry_size with hq
  set size := next_power_of_two q with hsize
  set t := new M entry_size table_byte_size strategy with ht
  have hlen : t.table.length = size := by
    show (List.replicate size (emptyEntry M)).length = size
    simp
  have hstr : t.strategy = strategy := rfl
  obtain ⟨k, hk⟩ := next_power_of_two_pow q
  have hpos : 0 < size := by rw [hsize, hk]; exact Nat.pos_pow_of_pos k (by omega)
  have hmask : t.mask ≤ size - 1 := by
    show (if strategy = Replacement.TwoTier
      then (size - 1) &&& usizeNotOne else size - 1) ≤ size - 1
    split
    · exact Nat.and_le_left
    · exact Nat.le_refl _
  have hidx : ∀ h : Nat, h &&& t.mask < size :=
    fun h => Nat.lt_of_le_of_lt (Nat.le_trans Nat.and_le_right hmask) (by omega)
  refine ⟨⟨k, by rw [hlen, hsize, hk]⟩, ?_, fun hs h d => ?_, fun h2 h d => ?_⟩
  · rw [hlen]; exact le_next_power_of_two q
  · rw [hlen]
    constructor
    · intro i hi
      rcases lookupIndices_subset t h i hi with rfl | ⟨htt, _⟩
      · exact hidx h
      · exact absurd (hstr.symm.trans htt) hs
    · intro i hi
      rcases storeIndices_subset t h d i hi with rfl | ⟨htt, _⟩
      · exact hidx h
      · exact absurd (hstr.symm.trans htt) hs
  · have hsz2 : 2 ≤ size := Nat.le_trans h2 (le_next_power_of_two q)
    have hke : size % 2 = 0 := by
      rcases k with _ | k
      · rw [hk] at hsize; omega
      · rw [hsize, hk, pow_succ]; omega
    have hsecond : t.strategy = Replacement.TwoTier →
        (h &&& t.mask) + 1 < size := by
      intro htt
      have hmask2 : t.mask = (size - 1) &&& usizeNotOne := by
        show (if strategy = Replacement.TwoTier
          then (size - 1) &&& usizeNotOne else size - 1) = _
        rw [hstr.symm.trans htt]
        simp
      have heven : (h &&& t.mask) % 2 = 0 := by
        rw [hmask2]; exact twotier_index_even size h
      have hle : h &&& t.mask ≤ size - 1 :=
        Nat.le_trans Nat.and_le_right hmask
      omega
    rw [hlen]
    constructor
    · intro i hi
      rcases lookupIndices_subset t h i hi with rfl | ⟨htt, rfl⟩
      · exact hidx h
      · exact hsecond htt
    · intro i hi
      rcases storeIndices_subset t h d i hi with rfl | ⟨htt, rfl⟩
      · exact hidx h
      · exact hsecond htt

theorem C6_table_size_and_index_bounds_witness :
    (∀ i ∈ lookupIndices tt4u 5, i < tt4u.table.length) ∧
    (∀ i ∈ storeIndices tt4u 5 3, i < tt4u.table.length) :=
  (C6_table_size_and_index_bounds 16 64 Replacement.TwoTier).2.2.2
    (by decide) 5 3

/-- C1, the code evaluated at the failing input: on a root state with no
legal moves (and nonzero hash), in depth-bounded mode on a fresh searcher,
the root `negamax` returns `WORST_EVAL` without storing a table entry, so
`choose_move` reaches `table.lookup(root_hash).unwrap()` with no entry
present — a panic in Rust — instead of returning no move as the spec
requires. -/
theorem C1_no_moves_root_panics :
    (negamax stuck_game (fun _ => false) 0 true 1 ()
        (TranspositionTable.new Unit 16 1000000 Replacement.TwoTier) 0
        WORST_EVAL BEST_EVAL).value = some WORST_EVAL ∧
    (choose_move_fresh stuck_game 16 IterativeOptions.new 5
        (fun _ => false) ()).panicked = true ∧
    (choose_move_fresh stuck_game 16 IterativeOptions.new 5
        (fun _ => false) ()).best_move = none := by
  refine ⟨by decide, by decide, by decide⟩

/-- C3, the code evaluated at the failing input: at depth 1 with
`serial_cutoff_depth = 0` on a two-move game, the move list handed to the
parallel region is the full `[1, 2]` — including the first move `1`, which
was already searched serially — not just the remaining child `[2]` that the
spec (and the module's own doc comment, "parallelizes all other moves")
describes. -/
theorem C3_parallel_dispatches_first_move :
    (ybw_negamax duo_game (fun _ => false)
        { YbwOptions.new with serial_cutoff_depth := 0 } 1 0 cex_tt 0 []
        WORST_EVAL BEST_EVAL).dispatched = [[1, 2]] ∧
    ([1, 2] : List Nat) ≠ [2] := by
  refine ⟨by decide, by decide⟩

/-- C10: the iteration schedule of `choose_move` depends on `max_depth` only
through `max_depth % 256` (the loop variable and its bound are
`self.max_depth as u8`), so the whole result of `choose_move` is unchanged
by reducing `max_depth` modulo 256; in particular `set_max_depth(256)`
searches only depth 1. -/
theorem C10_max_depth_truncated_to_u8 :
    (∀ (S M : Type) (inst : DecidableEq M) (g : Game S M)
      (opts : IterativeOptions) (max_depth : Nat) (max_time_zero : Bool)
      (timer : Nat → Bool) (tt : TranspositionTable M)
      (prev_value : Evaluation) (s : S),
      @choose_move S M inst g opts max_depth max_time_zero timer tt prev_value s =
        @choose_move S M inst g opts (max_depth % 256) max_time_zero timer tt
          prev_value s) ∧
    (choose_move_fresh step_game 16 IterativeOptions.new 256
      (fun _ => false) 0).searched = [1] := by
  constructor
  · intro S M inst g opts max_depth max_time_zero timer tt prev_value s
    unfold choose_move
    rw [Nat.mod_mod_of_dvd max_depth (Nat.dvd_refl 256)]
  · decide

/-- C8: with `max_time = 0` (depth-bounded mode, as `set_max_depth`
installs), the timeout flag is the constantly-false fresh `AtomicBool`, so
two runs of `choose_move` on freshly constructed searchers with the same
options, depth, game and state return the same move and the same
`root_value()` regardless of the wall clock — formally, the result does not
depend on the timer signal at all. -/
theorem C8_depth_bounded_deterministic {S M : Type} [DecidableEq M]
    (g : Game S M) (entry_size : Nat) (opts : IterativeOptions)
    (max_depth : Nat) (timer1 timer2 : Nat → Bool) (s : S) :
    (choose_move_fresh g entry_size opts max_depth timer1 s).best_move =
      (choose_move_fresh g entry_size opts max_depth timer2 s).best_move ∧
    unclamp_value (choose_move_fresh g entry_size opts max_depth timer1 s).prev_value =
      unclamp_value (choose_move_fresh g entry_size opts max_depth timer2 s).prev_value :=
  ⟨rfl, rfl⟩

/-! ### State preservation (frame property) of the search -/

theorem noisy_loop_preserves {S M : Type} (g : Game S M)
    (hinv : ∀ (m : M) (s : S), g.undo m (g.apply m s) = s)
    (child : S → Nat → Evaluation → Evaluation → QRes S)
    (hchild : ∀ (s : S) (polls : Nat) (alpha beta : Evaluation),
      (child s polls alpha beta).value.isSome → (child s polls alpha beta).s = s) :
    ∀ (moves : List M) (s : S) (polls : Nat) (best alpha beta : Evaluation)
      (hAcc : Nat),
      (noisy_loop g child moves s polls best alpha beta hAcc).value.isSome →
      (noisy_loop g child moves s polls best alpha beta hAcc).s = s := by
  intro moves
  induction moves with
  | nil => intro s polls best alpha beta hAcc _; rfl
  | cons m ms ih =>
    intro s polls best alpha beta hAcc hsome
    rcases hch : child (g.apply m s) polls (-beta) (-alpha)
      with ⟨rv, rs, rpolls, rh⟩
    rcases rv with _ | v
    · simp only [noisy_loop, hch] at hsome
      simp at hsome
    · have h1 := hchild (g.apply m s) polls (-beta) (-alpha)
      rw [hch] at h1
      have hs2 : g.undo m rs = s := by
        have h2 : rs = g.apply m s := h1 (by simp)
        rw [h2, hinv]
      simp only [noisy_loop, hch] at hsome ⊢
      rw [hs2] at hsome ⊢
      by_cases hb : beta ≤ max alpha (-v)
      · simp only [hb, if_true]
      · simp only [hb, if_false] at hsome ⊢
        exact ih s rpolls (max best (-v)) (max alpha (-v)) beta _ hsome

theorem noisy_negamax_preserves {S M : Type} (g : Game S M)
    (tick : Nat → Bool)
    (hinv : ∀ (m : M) (s : S), g.undo m (g.apply m s) = s) :
    ∀ (depth : Nat) (s : S) (polls : Nat) (alpha beta : Evaluation),
      (noisy_negamax g tick depth s polls alpha beta).value.isSome →
      (noisy_negamax g tick depth s polls alpha beta).s = s := by
  intro depth
  induction depth with
  | zero =>
    intro s polls alpha beta _
    simp only [noisy_negamax]
    split
    · rfl
    · split <;> rfl
  | succ d ih =>
    intro s polls alpha beta hsome
    by_cases ht : tick polls
    · simp only [noisy_negamax, ht, if_true] at hsome
      simp at hsome
    · rcases hw : g.get_winner s with _ | w
      · rcases hm : g.generate_noisy_moves s with _ | ⟨m, ms⟩
        · simp [noisy_negamax, ht, hw, hm]
        · simp only [noisy_negamax, ht, if_false, hw, hm] at hsome ⊢
          exact noisy_loop_preserves g hinv _ ih (m :: ms) s (polls + 1)
            WORST_EVAL alpha beta 0 hsome
      · simp [noisy_negamax, ht, hw]

/-- Unfolding equation of `negamax` at depth 0. -/
theorem negamax_zero_eq {S M : Type} [DecidableEq M] (g : Game S M)
    (tick : Nat → Bool) (maxQ : Nat) (nws : Bool) :
    negamax g tick maxQ nws 0 = negamax_zero g tick maxQ := rfl

/-- Unfolding equation of `negamax` at depth `d + 1`. -/
theorem negamax_succ_eq {S M : Type} [DecidableEq M] (g : Game S M)
    (tick : Nat → Bool) (maxQ : Nat) (nws : Bool) (d : Nat) :
    negamax g tick maxQ nws (d + 1) =
      negamax_succ g tick nws d (negamax g tick maxQ nws d) := rfl

theorem negamax_child_preserves {S M : Type}
    (child : S → TranspositionTable M → Nat → Evaluation → Evaluation → NRes S M)
    (hchild : ∀ (s : S) (tt : TranspositionTable M) (polls : Nat)
      (alpha beta : Evaluation),
      (child s tt polls alpha beta).value.isSome →
      (child s tt polls alpha beta).s = s)
    (null_window : Bool) (alpha beta : Evaluation) (s : S)
    (tt : TranspositionTable M) (polls : Nat) :
    (negamax_child child null_window alpha beta s tt polls).value.isSome →
    (negamax_child child null_window alpha beta s tt polls).s = s := by
  unfold negamax_child
  rcases null_window with _ | _
  · simp only [Bool.false_eq_true, if_false]
    rcases hch : child s tt polls (-beta) (-alpha) with ⟨rv, rs, rtt, rpolls, rh⟩
    have h1 := hchild s tt polls (-beta) (-alpha)
    rw [hch] at h1
    rcases rv with _ | v
    · intro hsome; simp at hsome
    · intro _; exact h1 (by simp)
  · simp only [if_true]
    rcases hch : child s tt polls (-alpha - 1) (-alpha)
      with ⟨pv, ps, ptt, ppolls, ph⟩
    have h1 := hchild s tt polls (-alpha - 1) (-alpha)
    rw [hch] at h1
    rcases pv with _ | pv
    · intro hsome; simp at hsome
    · have hps : ps = s := h1 (by simp)
      by_cases hpr : alpha < -pv ∧ -pv < beta
      · simp only [hpr, if_true]
        rcases hch2 : child ps ptt ppolls (-beta) (-(-pv))
          with ⟨rv, rs, rtt, rpolls, rh⟩
        have h2 := hchild ps ptt ppolls (-beta) (-(-pv))
        rw [hch2] at h2
        rcases rv with _ | rv
        · intro hsome; simp at hsome
        · intro _
          have h3 : rs = ps := h2 (by simp)
          exact h3.trans hps
      · simp only [hpr, if_false]
        intro _
        exact hps

theorem negamax_loop_preserves {S M : Type} [DecidableEq M] (g : Game S M)
    (hinv : ∀ (m : M) (s : S), g.undo m (g.apply m s) = s) (nws_opt : Bool)
    (child : S → TranspositionTable M → Nat → Evaluation → Evaluation → NRes S M)
    (hchild : ∀ (s : S) (tt : TranspositionTable M) (polls : Nat)
      (alpha beta : Evaluation),
      (child s tt polls alpha beta).value.isSome →
      (child s tt polls alpha beta).s = s) :
    ∀ (moves : List M) (s : S) (tt : TranspositionTable M) (polls : Nat)
      (best : Evaluation) (best_move : M) (alpha beta : Evaluation)
      (null_window : Bool) (hAcc : Nat),
      (negamax_loop g nws_opt child moves s tt polls best best_move alpha beta
        null_window hAcc).out.isSome →
      (negamax_loop g nws_opt child moves s tt polls best best_move alpha beta
        null_window hAcc).s = s := by
  intro moves
  induction moves with
  | nil => intro s tt polls best best_move alpha beta null_window hAcc _; rfl
  | cons m ms ih =>
    intro s tt polls best best_move alpha beta null_window hAcc hsome
    rcases hch : negamax_child child null_window alpha beta (g.apply m s) tt polls
      with ⟨cv, cs, ctt, cpolls, chh⟩
    rcases cv with _ | value
    · simp only [negamax_loop, hch] at hsome
      simp at hsome
    · have h1 := negamax_child_preserves child hchild null_window alpha beta
        (g.apply m s) tt polls
      rw [hch] at h1
      have hs2 : g.undo m cs = s := by
        have h2 : cs = g.apply m s := h1 (by simp)
        rw [h2, hinv]
      simp only [negamax_loop, hch] at hsome ⊢
      rw [hs2] at hsome ⊢
      by_cases hb : beta ≤ (if alpha < value then value else alpha)
      · simp only [hb, if_true]
      · simp only [hb, if_false] at hsome ⊢
        exact ih s ctt cpolls _ _ _ beta _ _ hsome

theorem negamax_preserves {S M : Type} [DecidableEq M] (g : Game S M)
    (tick : Nat → Bool) (maxQ : Nat) (nws : Bool)
    (hinv : ∀ (m : M) (s : S), g.undo m (g.apply m s) = s) :
    ∀ (depth : Nat) (s : S) (tt : TranspositionTable M) (polls : Nat)
      (alpha beta : Evaluation),
      (negamax g tick maxQ nws depth s tt polls alpha beta).value.isSome →
      (negamax g tick maxQ nws depth s tt polls alpha beta).s = s := by
  intro depth
  induction depth with
  | zero =>
    intro s tt polls alpha beta hsome
    rw [negamax_zero_eq] at hsome ⊢
    unfold negamax_zero at hsome ⊢
    by_cases ht : tick polls
    · simp only [ht, if_true] at hsome; simp at hsome
    · simp only [ht, if_false] at hsome ⊢
      rcases hq : noisy_negamax g tick maxQ s (polls + 1) alpha beta
        with ⟨qv, qs, qpolls, qh⟩
      have h1 := noisy_negamax_preserves g tick hinv maxQ s (polls + 1) alpha beta
      rw [hq] at h1
      rcases qv with _ | v
      · rw [hq] at hsome; simp at hsome
      · exact h1 (by simp)
  | succ d ih =>
    intro s tt polls alpha beta hsome
    rw [negamax_succ_eq] at hsome ⊢
    unfold negamax_succ at hsome ⊢
    by_cases ht : tick polls
    · simp only [ht, if_true] at hsome; simp at hsome
    · simp only [ht, if_false] at hsome ⊢
      rcases hw : g.get_winner s with _ | w
      · rcases hc : TranspositionTable.check tt (g.zobrist s) (d + 1) none
          alpha beta with ⟨good, alpha2, beta2, cut⟩
        rcases cut with _ | v
        · rcases hm : g.generate_moves s with _ | ⟨m0, rest⟩
          · simp [hw, hc, hm]
          · simp only [hw, hc, hm] at hsome ⊢
            rcases hl : negamax_loop g nws (negamax g tick maxQ nws d)
              (reorder_moves (m0 :: rest) good) s tt (polls + 1) WORST_EVAL
              ((reorder_moves (m0 :: rest) good).headD m0) alpha2 beta2 false 0
              with ⟨out, rs, rtt, rpolls, rh⟩
            have h1 := negamax_loop_preserves g hinv nws
              (negamax g tick maxQ nws d) (fun s2 tt2 p2 a2 b2 => ih s2 tt2 p2 a2 b2)
              (reorder_moves (m0 :: rest) good) s tt (polls + 1) WORST_EVAL
              ((reorder_moves (m0 :: rest) good).headD m0) alpha2 beta2 false 0
            rw [hl] at h1
            rcases out with _ | ⟨best, best_move⟩
            · rw [hl] at hsome; simp at hsome
            · exact h1 (by simp)
        · simp [hw, hc]
      · simp [hw]

/-- C2 counterexample: at depth 1 on a one-move game whose `apply` adds one
to the state, with the timeout flag firing at the second poll, `negamax`
propagates `None` from the child through the `?` operator, which runs
before `m.undo(s)`: the call returns with the move still applied, so the
state on exit (1) differs from the state on entry (0). -/
theorem C2_counterexample :
    (negamax step_game (fun n => decide (1 ≤ n)) 0 true 1 0 tt4u 0
      WORST_EVAL BEST_EVAL).value = none ∧
    (negamax step_game (fun n => decide (1 ≤ n)) 0 true 1 0 tt4u 0
      WORST_EVAL BEST_EVAL).s = 1 ∧
    (1 : Int) ≠ 0 := by
  refine ⟨by decide, by decide, by decide⟩

/-- C2 (amended): in `negamax` and `noisy_negamax`, every applied move is
undone after its child returns a value, so whenever the call returns a
value (`Some`) the state equals the state at entry — provided the game's
`undo` reverses its `apply`, as the collaborator contract requires.  When
the call returns `None` the last applied move has not been undone (the `?`
operator fires before `m.undo(s)`) and the state can differ from the state
at entry, as the counterexample shows. -/
theorem C2_state_restored_amended {S M : Type} [DecidableEq M] (g : Game S M)
    (tick : Nat → Bool) (maxQ : Nat) (nws : Bool)
    (hinv : ∀ (m : M) (s : S), g.undo m (g.apply m s) = s)
    (depth : Nat) (s : S) (tt : TranspositionTable M) (polls : Nat)
    (alpha beta : Evaluation) :
    ((negamax g tick maxQ nws depth s tt polls alpha beta).value.isSome →
      (negamax g tick maxQ nws depth s tt polls alpha beta).s = s) ∧
    ((noisy_negamax g tick depth s polls alpha beta).value.isSome →
      (noisy_negamax g tick depth s polls alpha beta).s = s) :=
  ⟨negamax_preserves g tick maxQ nws hinv depth s tt polls alpha beta,
    noisy_negamax_preserves g tick hinv depth s polls alpha beta⟩

theorem C2_state_restored_amended_witness :
    (negamax step_game (fun _ => false) 0 true 1 0 tt4u 0
      WORST_EVAL BEST_EVAL).s = 0 :=
  (C2_state_restored_amended step_game (fun _ => false) 0 true
    (fun _ s => by simp [step_game]) 1 0 tt4u 0 WORST_EVAL BEST_EVAL).1 (by decide)

/-! ### Recursion-depth bounds -/

theorem noisy_loop_height {S M : Type} (g : Game S M)
    (child : S → Nat → Evaluation → Evaluation → QRes S) (B : Nat)
    (hchild : ∀ (s : S) (polls : Nat) (alpha beta : Evaluation),
      (child s polls alpha beta).height ≤ B) :
    ∀ (moves : List M) (s : S) (polls : Nat) (best alpha beta : Evaluation)
      (hAcc : Nat),
      (noisy_loop g child moves s polls best alpha beta hAcc).height ≤
        max hAcc (1 + B) := by
  intro moves
  induction moves with
  | nil => intro s polls best alpha beta hAcc; exact le_max_left _ _
  | cons m ms ih =>
    intro s polls best alpha beta hAcc
    rcases hch : child (g.apply m s) polls (-beta) (-alpha)
      with ⟨rv, rs, rpolls, rh⟩
    have hrh : rh ≤ B := by
      have := hchild (g.apply m s) polls (-beta) (-alpha)
      rw [hch] at this
      exact this
    have hacc2 : max hAcc (1 + rh) ≤ max hAcc (1 + B) :=
      max_le (le_max_left _ _) (le_trans (by omega) (le_max_right _ _))
    rcases rv with _ | v
    · simp only [noisy_loop, hch]
      exact hacc2
    · simp only [noisy_loop, hch]
      by_cases hb : beta ≤ max alpha (-v)
      · simp only [hb, if_true]
        exact hacc2
      · simp only [hb, if_false]
        exact le_trans (ih _ _ _ _ _ _)
          (max_le hacc2 (le_max_right _ _))

theorem noisy_negamax_height {S M : Type} (g : Game S M) (tick : Nat → Bool) :
    ∀ (depth : Nat) (s : S) (polls : Nat) (alpha beta : Evaluation),
      (noisy_negamax g tick depth s polls alpha beta).height ≤ depth := by
  intro depth
  induction depth with
  | zero =>
    intro s polls alpha beta
    simp only [noisy_negamax]
    split
    · exact Nat.le_refl 0
    · split <;> exact Nat.le_refl 0
  | succ d ih =>
    intro s polls alpha beta
    by_cases ht : tick polls
    · simp [noisy_negamax, ht]
    · rcases hw : g.get_winner s with _ | w
      · rcases hm : g.generate_noisy_moves s with _ | ⟨m, ms⟩
        · simp [noisy_negamax, ht, hw, hm]
        · simp only [noisy_negamax, ht, Bool.false_eq_true, if_false, hw, hm]
          have h1 := noisy_loop_height g (noisy_negamax g tick d) d
            (fun s2 p2 a2 b2 => ih s2 p2 a2 b2) (m :: ms) s (polls + 1)
            WORST_EVAL alpha beta 0
          have h2 : max 0 (1 + d) = d + 1 := by omega
          rw [h2] at h1
          exact h1
      · simp [noisy_negamax, ht, hw]

theorem negamax_child_height {S M : Type}
    (child : S → TranspositionTable M → Nat → Evaluation → Evaluation → NRes S M)
    (B : Nat)
    (hchild : ∀ (s : S) (tt : TranspositionTable M) (polls : Nat)
      (alpha beta : Evaluation), (child s tt polls alpha beta).height ≤ B)
    (null_window : Bool) (alpha beta : Evaluation) (s : S)
    (tt : TranspositionTable M) (polls : Nat) :
    (negamax_child child null_window alpha beta s tt polls).height ≤ 1 + B := by
  unfold negamax_child
  rcases null_window with _ | _
  · simp only [Bool.false_eq_true, if_false]
    rcases hch : child s tt polls (-beta) (-alpha) with ⟨rv, rs, rtt, rpolls, rh⟩
    have hrh : rh ≤ B := by
      have := hchild s tt polls (-beta) (-alpha); rw [hch] at this; exact this
    rcases rv with _ | v <;>
      exact (show 1 + rh ≤ 1 + B by omega)
  · simp only [if_true]
    rcases hch : child s tt polls (-alpha - 1) (-alpha)
      with ⟨pv, ps, ptt, ppolls, ph⟩
    have hph : ph ≤ B := by
      have := hchild s tt polls (-alpha - 1) (-alpha); rw [hch] at this
      exact this
    rcases pv with _ | pv
    · show 1 + ph ≤ 1 + B
      omega
    · by_cases hpr : alpha < -pv ∧ -pv < beta
      · simp only [hpr, if_true]
        rcases hch2 : child ps ptt ppolls (-beta) (-(-pv))
          with ⟨rv, rs, rtt, rpolls, rh⟩
        have hrh : rh ≤ B := by
          have := hchild ps ptt ppolls (-beta) (-(-pv)); rw [hch2] at this
          exact this
        rcases rv with _ | rv <;>
          exact (show max (1 + ph) (1 + rh) ≤ 1 + B from
            max_le (by omega) (by omega))
      · simp only [hpr, if_false]
        show 1 + ph ≤ 1 + B
        omega

theorem negamax_loop_height {S M : Type} [DecidableEq M] (g : Game S M)
    (nws_opt : Bool)
    (child : S → TranspositionTable M → Nat → Evaluation → Evaluation → NRes S M)
    (B : Nat)
    (hchild : ∀ (s : S) (tt : TranspositionTable M) (polls : Nat)
      (alpha beta : Evaluation), (child s tt polls alpha beta).height ≤ B) :
    ∀ (moves : List M) (s : S) (tt : TranspositionTable M) (polls : Nat)
      (best : Evaluation) (best_move : M) (alpha beta : Evaluation)
      (null_window : Bool) (hAcc : Nat),
      (negamax_loop g nws_opt child moves s tt polls best best_move alpha beta
        null_window hAcc).height ≤ max hAcc (1 + B) := by
  intro moves
  induction moves with
  | nil =>
    intro s tt polls best best_move alpha beta null_window hAcc
    exact le_max_left _ _
  | cons m ms ih =>
    intro s tt polls best best_move alpha beta null_window hAcc
    rcases hch : negamax_child child null_window alpha beta (g.apply m s) tt polls
      with ⟨cv, cs, ctt, cpolls, chh⟩
    have hh : chh ≤ 1 + B := by
      have := negamax_child_height child B hchild null_window alpha beta
        (g.apply m s) tt polls
      rw [hch] at this
      exact this
    have hacc2 : max hAcc chh ≤ max hAcc (1 + B) :=
      max_le (le_max_left _ _) (le_trans hh (le_max_right _ _))
    rcases cv with _ | value
    · simp only [negamax_loop, hch]
      exact hacc2
    · simp only [negamax_loop, hch]
      by_cases hb : beta ≤ (if alpha < value then value else alpha)
      · simp only [hb, if_true]
        exact hacc2
      · simp only [hb, if_false]
        exact le_trans (ih _ _ _ _ _ _ _ _ _)
          (max_le hacc2 (le_max_right _ _))

theorem negamax_height {S M : Type} [DecidableEq M] (g : Game S M)
    (tick : Nat → Bool) (maxQ : Nat) (nws : Bool) :
    ∀ (depth : Nat) (s : S) (tt : TranspositionTable M) (polls : Nat)
      (alpha beta : Evaluation),
      (negamax g tick maxQ nws depth s tt polls alpha beta).height ≤
        depth + maxQ + 1 := by
  intro depth
  induction depth with
  | zero =>
    intro s tt polls alpha beta
    rw [negamax_zero_eq]
    unfold negamax_zero
    by_cases ht : tick polls
    · simp [ht]
    · simp only [ht, if_false]
      rcases hq : noisy_negamax g tick maxQ s (polls + 1) alpha beta
        with ⟨qv, qs, qpolls, qh⟩
      have h1 : qh ≤ maxQ := by
        have := noisy_negamax_height g tick maxQ s (polls + 1) alpha beta
        rw [hq] at this
        exact this
      show 1 + qh ≤ 0 + maxQ + 1
      omega
  | succ d ih =>
    intro s tt polls alpha beta
    rw [negamax_succ_eq]
    unfold negamax_succ
    by_cases ht : tick polls
    · simp [ht]
    · simp only [ht, if_false]
      rcases hw : g.get_winner s with _ | w
      · rcases hc : TranspositionTable.check tt (g.zobrist s) (d + 1) none
          alpha beta with ⟨good, alpha2, beta2, cut⟩
        rcases cut with _ | v
        · rcases hm : g.generate_moves s with _ | ⟨m0, rest⟩
          · simp [hw, hc, hm]
          · simp only [hw, hc, hm]
            rcases hl : negamax_loop g nws (negamax g tick maxQ nws d)
              (reorder_moves (m0 :: rest) good) s tt (polls + 1) WORST_EVAL
              ((reorder_moves (m0 :: rest) good).headD m0) alpha2 beta2 false 0
              with ⟨out, rs, rtt, rpolls, rh⟩
            have h1 : rh ≤ max 0 (1 + (d + maxQ + 1)) := by
              have := negamax_loop_height g nws (negamax g tick maxQ nws d)
                (d + maxQ + 1) (fun s2 tt2 p2 a2 b2 => ih s2 tt2 p2 a2 b2)
                (reorder_moves (m0 :: rest) good) s tt (polls + 1) WORST_EVAL
                ((reorder_moves (m0 :: rest) good).headD m0) alpha2 beta2 false 0
              rw [hl] at this
              exact this
            rcases out with _ | ⟨best, best_move⟩ <;>
              · show rh ≤ d + 1 + maxQ + 1
                omega
        · simp [hw, hc]
      · simp [hw]

/-- C9: `negamax` and `noisy_negamax` terminate for every state, depth and
window — they are total functions of a structurally decreasing depth
argument — and the nesting depth of the recursive calls a root call
performs (`height`: 0 for a call that recurses no further, one more than
the deepest child call otherwise) is at most `depth` for the quiescence
search and at most `depth + max_quiescence_depth + 1` for `negamax`, whose
depth-0 leaves hand off to a quiescence search of at most
`max_quiescence_depth`. -/
theorem C9_recursion_depth_bounded {S M : Type} [DecidableEq M] (g : Game S M)
    (tick : Nat → Bool) (maxQ : Nat) (nws : Bool) (depth : Nat) (s : S)
    (tt : TranspositionTable M) (polls : Nat) (alpha beta : Evaluation) :
    (negamax g tick maxQ nws depth s tt polls alpha beta).height ≤
      depth + maxQ + 1 ∧
    (noisy_negamax g tick depth s polls alpha beta).height ≤ depth :=
  ⟨negamax_height g tick maxQ nws depth s tt polls alpha beta,
    noisy_negamax_height g tick depth s polls alpha beta⟩

/-! ### Null-window search equivalence -/

/-- C7 counterexample: a concrete finite game with deterministic move
generation (subset-sum positions, injective nonzero hash, all evaluations
far inside the sentinels, no quiescence) on which a single `negamax` call at
depth 4 from a fresh default (`TwoTier`) table returns `-5` with
`null_window_search` enabled but `4` with it disabled: the transposition
table carries window-dependent bound entries across positions reached at
different remaining depths, so the two settings diverge. -/
theorem C7_null_window_counterexample :
    (negamax cex_game (fun _ => false) 0 true 4 [] cex_tt 0
      WORST_EVAL BEST_EVAL).value = some (-5) ∧
    (negamax cex_game (fun _ => false) 0 false 4 [] cex_tt 0
      WORST_EVAL BEST_EVAL).value = some 4 ∧
    (some (-5) : Option Evaluation) ≠ some 4 := by
  refine ⟨by decide, by decide, by decide⟩

theorem WORST_lt_BEST : WORST_EVAL < BEST_EVAL := by decide

theorem noisy_best_lt {S M : Type} (g : Game S M) (f : S → Evaluation)
    (hf : ∀ s : S, WORST_EVAL < f s ∧ f s < BEST_EVAL) (s : S) :
    ∀ moves : List M, noisy_best g f s moves < BEST_EVAL := by
  intro moves
  induction moves with
  | nil => exact WORST_lt_BEST
  | cons m ms ih =>
    have h1 := (hf (g.apply m s)).1
    have h2 : -f (g.apply m s) < BEST_EVAL := by
      have h3 := neg_lt_neg h1
      rwa [show WORST_EVAL = -BEST_EVAL from rfl, neg_neg] at h3
    exact max_lt h2 ih

theorem noisy_best_gt {S M : Type} (g : Game S M) (f : S → Evaluation)
    (hf : ∀ s : S, WORST_EVAL < f s ∧ f s < BEST_EVAL) (s : S)
    (m : M) (ms : List M) :
    WORST_EVAL < noisy_best g f s (m :: ms) := by
  have h2 := (hf (g.apply m s)).2
  have h3 : WORST_EVAL < -f (g.apply m s) := by
    show WORST_EVAL < _
    rw [show WORST_EVAL = -BEST_EVAL from rfl]
    exact neg_lt_neg h2
  exact lt_max_of_lt_left h3

theorem noisy_true_bounds {S M : Type} (g : Game S M)
    (hev : ∀ s : S, WORST_EVAL < g.evaluate s ∧ g.evaluate s < BEST_EVAL)
    (hwin : ∀ (s : S) (w : Evaluation), g.get_winner s = some w →
      WORST_EVAL < w ∧ w < BEST_EVAL) :
    ∀ (d : Nat) (s : S),
      WORST_EVAL < noisy_true g d s ∧ noisy_true g d s < BEST_EVAL := by
  intro d
  induction d with
  | zero =>
    intro s
    show WORST_EVAL <
        (match g.get_winner s with
          | some w => w
          | none => g.evaluate s) ∧
      (match g.get_winner s with
        | some w => w
        | none => g.evaluate s) < BEST_EVAL
    rcases hw : g.get_winner s with _ | w
    · simp only [hw]; exact hev s
    · simp only [hw]; exact hwin s w hw
  | succ d ih =>
    intro s
    show WORST_EVAL <
        (match g.get_winner s with
          | some w => w
          | none =>
            match g.generate_noisy_moves s with
            | [] => g.evaluate s
            | m :: ms => noisy_best g (noisy_true g d) s (m :: ms)) ∧
      (match g.get_winner s with
        | some w => w
        | none =>
          match g.generate_noisy_moves s with
          | [] => g.evaluate s
          | m :: ms => noisy_best g (noisy_true g d) s (m :: ms)) < BEST_EVAL
    rcases hw : g.get_winner s with _ | w
    · rcases hm : g.generate_noisy_moves s with _ | ⟨m, ms⟩
      · simp only [hw, hm]; exact hev s
      · simp only [hw, hm]
        exact ⟨noisy_best_gt g _ ih s m ms, noisy_best_lt g _ ih s (m :: ms)⟩
    · simp only [hw]; exact hwin s w hw

/-- The fail-soft window guarantee of the quiescence move loop: assuming the
recursive child search is fail-soft correct against the reference value
`tv`, the loop's result `v` satisfies `best₀ ≤ v` and is an upper bound, a
lower bound, or exactly equal to `max best₀ (noisy_best …)` according to
where it falls relative to the window. -/
theorem noisy_loop_fail_soft {S M : Type} (g : Game S M)
    (hinv : ∀ (m : M) (s : S), g.undo m (g.apply m s) = s)
    (child : S → Nat → Evaluation → Evaluation → QRes S)
    (tv : S → Evaluation)
    (hpres : ∀ (s : S) (polls : Nat) (alpha beta : Evaluation),
      (child s polls alpha beta).value.isSome → (child s polls alpha beta).s = s)
    (hchild : ∀ (s : S) (polls : Nat) (alpha beta : Evaluation), alpha < beta →
      ∃ cv, (child s polls alpha beta).value = some cv ∧
        (cv ≤ alpha → tv s ≤ cv) ∧ (beta ≤ cv → cv ≤ tv s) ∧
        (alpha < cv → cv < beta → cv = tv s)) :
    ∀ (moves : List M) (s : S) (polls : Nat) (best alpha beta : Evaluation)
      (hAcc : Nat), alpha < beta → WORST_EVAL ≤ best →
      ∃ v, (noisy_loop g child moves s polls best alpha beta hAcc).value = some v ∧
        best ≤ v ∧
        (v ≤ alpha → max best (noisy_best g tv s moves) ≤ v) ∧
        (beta ≤ v → v ≤ max best (noisy_best g tv s moves)) ∧
        (alpha < v → v < beta → v = max best (noisy_best g tv s moves)) := by
  intro moves
  induction moves with
  | nil =>
    intro s polls best alpha beta hAcc hab hwb
    have hU : max best (noisy_best g tv s ([] : List M)) = best :=
      max_eq_left hwb
    exact ⟨best, rfl, le_refl best, fun _ => le_of_eq hU,
      fun _ => le_of_eq hU.symm, fun _ _ => hU.symm⟩
  | cons m ms ih =>
    intro s polls best alpha beta hAcc hab hwb
    obtain ⟨cv, hcv, hlo, hhi, hex⟩ :=
      hchild (g.apply m s) polls (-beta) (-alpha) (neg_lt_neg hab)
    rcases hch : child (g.apply m s) polls (-beta) (-alpha)
      with ⟨rv, rs, rpolls, rh⟩
    rw [hch] at hcv
    have hrv : rv = some cv := hcv
    subst hrv
    have hrs : rs = g.apply m s := by
      have h0 := hpres (g.apply m s) polls (-beta) (-alpha)
      rw [hch] at h0
      exact h0 (by simp)
    simp only [noisy_loop, hch, hrs, hinv m s]
    simp only [noisy_best]
    by_cases hcut : beta ≤ max alpha (-cv)
    · simp only [hcut, if_true]
      have hvb : beta ≤ -cv := by
        rcases le_max_iff.mp hcut with h | h
        · linarith
        · exact h
      have hvt : -cv ≤ -(tv (g.apply m s)) := by
        have := hlo (by linarith)
        linarith
      refine ⟨max best (-cv), rfl, le_max_left _ _, ?_, ?_, ?_⟩
      · intro hva
        exfalso
        have := le_max_right best (-cv)
        linarith
      · intro _
        exact max_le (le_max_left _ _)
          (le_trans hvt (le_trans (le_max_left _ _) (le_max_right _ _)))
      · intro _ h2
        exfalso
        have := le_max_right best (-cv)
        linarith
    · simp only [hcut, if_false]
      have hab2 : max alpha (-cv) < beta := not_le.mp hcut
      have hwb2 : WORST_EVAL ≤ max best (-cv) :=
        le_trans hwb (le_max_left _ _)
      obtain ⟨v, hveq, hbv, g2, g3, g4⟩ :=
        ih s rpolls (max best (-cv)) (max alpha (-cv)) beta
          (max hAcc (1 + rh)) hab2 hwb2
      refine ⟨v, hveq, le_trans (le_max_left _ _) hbv, ?_, ?_, ?_⟩
      · intro hva
        by_cases hraise : alpha < -cv
        · exfalso
          have := le_trans (le_max_right best (-cv)) hbv
          linarith
        · have halpha2 : max alpha (-cv) = alpha := max_eq_left (by linarith)
          rw [halpha2] at g2
          have hUv := g2 hva
          have hbest : best ≤ v :=
            le_trans (le_trans (le_max_left best (-cv)) (le_max_left _ _)) hUv
          have hcvv : -cv ≤ v :=
            le_trans (le_trans (le_max_right best (-cv)) (le_max_left _ _)) hUv
          have hnb : noisy_best g tv s ms ≤ v :=
            le_trans (le_max_right _ _) hUv
          have htc : -(tv (g.apply m s)) ≤ -cv := by
            have := hhi (by linarith)
            linarith
          exact max_le hbest (max_le (le_trans htc hcvv) hnb)
      · intro hbv2
        have hUp := g3 hbv2
        rcases le_max_iff.mp hUp with h | h
        · rcases le_max_iff.mp h with h1 | h1
          · exact le_trans h1 (le_max_left _ _)
          · exfalso
            have h2 : -cv < beta :=
              lt_of_le_of_lt (le_max_right alpha (-cv)) hab2
            linarith
        · exact le_trans h (le_trans (le_max_right (-(tv (g.apply m s))) _)
            (le_max_right best _))
      · intro h1 h2
        by_cases hraise : alpha < -cv
        · have hvcv : -cv < beta :=
            lt_of_le_of_lt (le_max_right alpha (-cv)) hab2
          have hval : cv = tv (g.apply m s) := hex (by linarith) (by linarith)
          have hUU : max (max best (-cv)) (noisy_best g tv s ms) =
              max best (max (-(tv (g.apply m s))) (noisy_best g tv s ms)) := by
            rw [show (-cv) = -(tv (g.apply m s)) by linarith]
            exact max_assoc _ _ _
          have halpha2 : max alpha (-cv) = -cv :=
            max_eq_right (le_of_lt hraise)
          by_cases hv2 : max alpha (-cv) < v
          · rw [← hUU]
            exact g4 hv2 h2
          · have hvle : v ≤ -cv := by rw [halpha2] at hv2; linarith
            have hcvv : -cv ≤ v := le_trans (le_max_right best (-cv)) hbv
            have hUv := g2 (by linarith)
            have hvU : v ≤ max (max best (-cv)) (noisy_best g tv s ms) :=
              le_trans hvle (le_trans (le_max_right best (-cv))
                (le_max_left _ _))
            rw [← hUU]
            linarith
        · have halpha2 : max alpha (-cv) = alpha := max_eq_left (by linarith)
          rw [halpha2] at g4 g2
          have hveqU := g4 h1 h2
          have htc : -(tv (g.apply m s)) ≤ -cv := by
            have := hhi (by linarith)
            linarith
          have hge : max best (max (-(tv (g.apply m s))) (noisy_best g tv s ms)) ≤ v := by
            have hbest : best ≤ v :=
              le_trans (le_max_left best (-cv)) hbv
            have hcvv : -cv ≤ v :=
              le_trans (le_max_right best (-cv)) hbv
            have hnb : noisy_best g tv s ms ≤ v := by
              rw [hveqU]
              exact le_max_right _ _
            exact max_le hbest (max_le (le_trans htc hcvv) hnb)
          have hle : v ≤ max best (max (-(tv (g.apply m s))) (noisy_best g tv s ms)) := by
            have h3 : v ≤ max (max best (-cv)) (noisy_best g tv s ms) :=
              le_of_eq hveqU
            rcases le_max_iff.mp h3 with h4 | h4
            · rcases le_max_iff.mp h4 with h5 | h5
              · exact le_trans h5 (le_max_left _ _)
              · exfalso; linarith
            · exact le_trans h4
                (le_trans (le_max_right (-(tv (g.apply m s))) _)
                  (le_max_right best _))
          linarith

/-- Fail-soft correctness of `noisy_negamax` (with the timeout flag never
set) against the unpruned reference value `noisy_true`: the returned value
is an upper bound, a lower bound, or exactly the reference value according
to where it falls relative to the window. -/
theorem noisy_negamax_fail_soft {S M : Type} (g : Game S M)
    (hinv : ∀ (m : M) (s : S), g.undo m (g.apply m s) = s) :
    ∀ (d : Nat) (s : S) (polls : Nat) (alpha beta : Evaluation),
      alpha < beta →
      WORST_EVAL < noisy_true g d s →
      (∀ (d2 : Nat) (s2 : S),
        WORST_EVAL < noisy_true g d2 s2 ∧ noisy_true g d2 s2 < BEST_EVAL) →
      ∃ v, (noisy_negamax g (fun _ => false) d s polls alpha beta).value =
          some v ∧
        (v ≤ alpha → noisy_true g d s ≤ v) ∧
        (beta ≤ v → v ≤ noisy_true g d s) ∧
        (alpha < v → v < beta → v = noisy_true g d s) := by
  intro d
  induction d with
  | zero =>
    intro s polls alpha beta hab _ _
    rcases hw : g.get_winner s with _ | w
    · have ht : noisy_true g 0 s = g.evaluate s := by
        show (match g.get_winner s with
          | some w => w
          | none => g.evaluate s) = _
        simp [hw]
      refine ⟨g.evaluate s, by simp [noisy_negamax, hw], ?_, ?_, ?_⟩
      · intro _; rw [ht]
      · intro _; rw [ht]
      · intro _ _; rw [ht]
    · have ht : noisy_true g 0 s = w := by
        show (match g.get_winner s with
          | some w => w
          | none => g.evaluate s) = _
        simp [hw]
      refine ⟨w, by simp [noisy_negamax, hw], ?_, ?_, ?_⟩
      · intro _; rw [ht]
      · intro _; rw [ht]
      · intro _ _; rw [ht]
  | succ d ih =>
    intro s polls alpha beta hab hgt hall
    rcases hw : g.get_winner s with _ | w
    · rcases hm : g.generate_noisy_moves s with _ | ⟨m, ms⟩
      · have ht : noisy_true g (d + 1) s = g.evaluate s := by
          show (match g.get_winner s with
            | some w => w
            | none =>
              match g.generate_noisy_moves s with
              | [] => g.evaluate s
              | m :: ms => noisy_best g (noisy_true g d) s (m :: ms)) = _
          simp [hw, hm]
        refine ⟨g.evaluate s, by simp [noisy_negamax, hw, hm], ?_, ?_, ?_⟩
        · intro _; rw [ht]
        · intro _; rw [ht]
        · intro _ _; rw [ht]
      · have ht : noisy_true g (d + 1) s =
            noisy_best g (noisy_true g d) s (m :: ms) := by
          show (match g.get_winner s with
            | some w => w
            | none =>
              match g.generate_noisy_moves s with
              | [] => g.evaluate s
              | m :: ms => noisy_best g (noisy_true g d) s (m :: ms)) = _
          simp [hw, hm]
        have hred : noisy_negamax g (fun _ => false) (d + 1) s polls alpha beta =
            noisy_loop g (noisy_negamax g (fun _ => false) d) (m :: ms) s
              (polls + 1) WORST_EVAL alpha beta 0 := by
          simp [noisy_negamax, hw, hm]
        obtain ⟨v, hveq, _, g2, g3, g4⟩ :=
          noisy_loop_fail_soft g hinv (noisy_negamax g (fun _ => false) d)
            (noisy_true g d)
            (fun s2 p a b =>
              noisy_negamax_preserves g (fun _ => false) hinv d s2 p a b)
            (fun s2 p a b hab2 => ih s2 p a b hab2 (hall d s2).1 hall)
            (m :: ms) s (polls + 1) WORST_EVAL alpha beta 0 hab
            (le_refl WORST_EVAL)
        have hU : max WORST_EVAL (noisy_best g (noisy_true g d) s (m :: ms)) =
            noisy_best g (noisy_true g d) s (m :: ms) := by
          apply max_eq_right
          apply le_of_lt
          rw [ht] at hgt
          exact hgt
        rw [hU] at g2 g3 g4
        rw [hred]
        exact ⟨v, hveq, fun h => ht ▸ g2 h, fun h => ht ▸ g3 h,
          fun h1 h2 => ht ▸ g4 h1 h2⟩
    · have ht : noisy_true g (d + 1) s = w := by
        show (match g.get_winner s with
          | some w => w
          | none =>
            match g.generate_noisy_moves s with
            | [] => g.evaluate s
            | m :: ms => noisy_best g (noisy_true g d) s (m :: ms)) = _
        simp [hw]
      refine ⟨w, by simp [noisy_negamax, hw], ?_, ?_, ?_⟩
      · intro _; rw [ht]
      · intro _; rw [ht]
      · intro _ _; rw [ht]

/-- On a fresh table every slot holds the all-zero entry, so `check` at any
positive depth neither returns a value nor tightens the window nor predicts
a move: the only possible hit is the zero hash on the zero entry, whose
stored depth `0` is below the request. -/
theorem check_fresh {M : Type} (entry_size table_byte_size : Nat)
    (strat : Replacement) (hash d : Nat) (a b : Evaluation) :
    check (new M entry_size table_byte_size strat) hash (d + 1) none a b =
      (none, a, b, none) := by
  have hget : ∀ i : Nat,
      (new M entry_size table_byte_size strat).table.getD i (emptyEntry M) =
        emptyEntry M := by
    intro i
    show (List.replicate _ (emptyEntry M)).getD i (emptyEntry M) = emptyEntry M
    exact getD_replicate _ _ _
  have hlk : lookup (new M entry_size table_byte_size strat) hash =
      if hash = 0 then some (emptyEntry M) else none := by
    unfold lookup
    simp only [hget]
    by_cases hh : hash = 0
    · simp [hh, emptyEntry]
    · simp [hh, emptyEntry]
  unfold check
  rw [hlk]
  by_cases hh : hash = 0
  · simp [hh, emptyEntry]
  · simp [hh]

/-- The depth-0 case of `negamax` with the timeout flag never set, as a
fail-soft child: it always returns a value, restores the state, passes the
table through unchanged, and its value is fail-soft correct against
`noisy_true` at the quiescence depth. -/
theorem negamax_zero_fail_soft {S M : Type} (g : Game S M)
    (hinv : ∀ (m : M) (s : S), g.undo m (g.apply m s) = s)
    (hev : ∀ s : S, WORST_EVAL < g.evaluate s ∧ g.evaluate s < BEST_EVAL)
    (hwin : ∀ (s : S) (w : Evaluation), g.get_winner s = some w →
      WORST_EVAL < w ∧ w < BEST_EVAL)
    (maxQ : Nat) :
    ∀ (s : S) (tt : TranspositionTable M) (polls : Nat)
      (alpha beta : Evaluation), alpha < beta →
      ∃ cv, (negamax_zero g (fun _ => false) maxQ s tt polls alpha beta).value =
          some cv ∧
        (negamax_zero g (fun _ => false) maxQ s tt polls alpha beta).s = s ∧
        (negamax_zero g (fun _ => false) maxQ s tt polls alpha beta).tt = tt ∧
        (cv ≤ alpha → noisy_true g maxQ s ≤ cv) ∧
        (beta ≤ cv → cv ≤ noisy_true g maxQ s) ∧
        (alpha < cv → cv < beta → cv = noisy_true g maxQ s) := by
  intro s tt polls alpha beta hab
  have hall := noisy_true_bounds g hev hwin
  obtain ⟨v, hv, h1, h2, h3⟩ :=
    noisy_negamax_fail_soft g hinv maxQ s (polls + 1) alpha beta hab
      (hall maxQ s).1 hall
  have hz : negamax_zero g (fun _ => false) maxQ s tt polls alpha beta =
      ⟨(noisy_negamax g (fun _ => false) maxQ s (polls + 1) alpha beta).value,
        (noisy_negamax g (fun _ => false) maxQ s (polls + 1) alpha beta).s,
        tt,
        (noisy_negamax g (fun _ => false) maxQ s (polls + 1) alpha beta).polls,
        1 + (noisy_negamax g (fun _ => false) maxQ s
          (polls + 1) alpha beta).height⟩ := by
    show (match noisy_negamax g (fun _ => false) maxQ s (polls + 1) alpha beta
        with
      | ⟨v, qs, qpolls, qh⟩ => (⟨v, qs, tt, qpolls, 1 + qh⟩ : NRes S M)) = _
    rcases noisy_negamax g (fun _ => false) maxQ s (polls + 1) alpha beta
      with ⟨v0, qs, qpolls, qh⟩
    rfl
  have hs : (noisy_negamax g (fun _ => false) maxQ s (polls + 1) alpha beta).s
      = s := by
    apply noisy_negamax_preserves g (fun _ => false) hinv
    rw [hv]; rfl
  exact ⟨v, by rw [hz]; exact hv, by rw [hz]; exact hs, by rw [hz], h1, h2, h3⟩

/-- Joint run of the main move loop with the null-window optimisation armed
(`nws_opt = true`) and disabled, over the full window `(α, BEST_EVAL)`:
assuming the child search always returns a value, restores state and table,
and is fail-soft correct against the reference `t`, the two runs produce the
same `(best, best_move)` pair.  The invariant is `best ≤ α` throughout, with
`best = α` once the null-window flag is armed; before arming the two runs
are step-for-step identical (hence share the poll counter). -/
theorem negamax_loop_nws_eq {S M : Type} (g : Game S M)
    (hinv : ∀ (m : M) (s : S), g.undo m (g.apply m s) = s)
    (child : S → TranspositionTable M → Nat → Evaluation → Evaluation →
      NRes S M)
    (t : S → Evaluation)
    (hb : ∀ s : S, WORST_EVAL < t s ∧ t s < BEST_EVAL)
    (hchild : ∀ (s : S) (tt : TranspositionTable M) (polls : Nat)
      (a b : Evaluation), a < b →
      ∃ cv, (child s tt polls a b).value = some cv ∧
        (child s tt polls a b).s = s ∧ (child s tt polls a b).tt = tt ∧
        (cv ≤ a → t s ≤ cv) ∧ (b ≤ cv → cv ≤ t s) ∧
        (a < cv → cv < b → cv = t s)) :
    ∀ (moves : List M) (s : S) (tt : TranspositionTable M)
      (polls1 polls2 : Nat) (best : Evaluation) (bm : M) (alpha : Evaluation)
      (nw : Bool) (hAcc1 hAcc2 : Nat),
      alpha < BEST_EVAL → WORST_EVAL ≤ best → best ≤ alpha →
      (nw = true → best = alpha) → (nw = false → polls1 = polls2) →
      ∃ out : Evaluation × M,
        (negamax_loop g true child moves s tt polls1 best bm alpha BEST_EVAL
          nw hAcc1).out = some out ∧
        (negamax_loop g false child moves s tt polls2 best bm alpha BEST_EVAL
          false hAcc2).out = some out := by
  intro moves
  induction moves with
  | nil =>
    intro s tt polls1 polls2 best bm alpha nw hAcc1 hAcc2 _ _ _ _ _
    exact ⟨(best, bm), rfl, rfl⟩
  | cons m ms ih =>
    intro s tt polls1 polls2 best bm alpha nw hAcc1 hAcc2 hab hwb hba harm hp
    have htm := hb (g.apply m s)
    have hWB : WORST_EVAL = -BEST_EVAL := rfl
    cases nw with
    | false =>
      have hpe : polls1 = polls2 := hp rfl
      subst hpe
      obtain ⟨cv, hcv, hcs, hctt, hlo, hhi, hex⟩ :=
        hchild (g.apply m s) tt polls1 (-BEST_EVAL) (-alpha) (by linarith)
      rcases hch : child (g.apply m s) tt polls1 (-BEST_EVAL) (-alpha)
        with ⟨rv, rs, rtt, rpolls, rh⟩
      rw [hch] at hcv hcs hctt
      have h1 : rv = some cv := hcv
      have h2 : rs = g.apply m s := hcs
      have h3 : tt = rtt := hctt.symm
      subst h1; subst h2; subst h3
      have hcc : negamax_child child false alpha BEST_EVAL (g.apply m s) tt
          polls1 = ⟨some (-cv), g.apply m s, tt, rpolls, 1 + rh⟩ := by
        unfold negamax_child
        simp only [Bool.false_eq_true, if_false, hch]
      by_cases hv : alpha < -cv
      · -- the shared full-window child raises alpha: its value is exact
        have hcvW : -BEST_EVAL < cv := by
          by_contra hcon
          push_neg at hcon
          have h5 := hlo hcon
          have h6 : WORST_EVAL < t (g.apply m s) := htm.1
          rw [hWB] at h6
          linarith
        have hcveq : cv = t (g.apply m s) := hex hcvW (by linarith)
        have hvB : -cv < BEST_EVAL := by
          rw [hcveq]
          have h6 := htm.1
          rw [hWB] at h6
          linarith
        have hbv : best < -cv := lt_of_le_of_lt hba hv
        have hnb : ¬ BEST_EVAL ≤ -cv := not_le.mpr hvB
        have hWv : WORST_EVAL ≤ -cv :=
          le_trans (le_trans hwb hba) (le_of_lt hv)
        simp only [negamax_loop, hcc, hinv m s, hv, hbv, if_true, hnb,
          if_false]
        exact ih s tt rpolls rpolls (-cv) m (-cv) true _ _ hvB hWv
          le_rfl (fun _ => rfl) (fun h => nomatch h)
      · -- the shared child value does not raise alpha
        have hnb : ¬ BEST_EVAL ≤ alpha := not_le.mpr hab
        simp only [negamax_loop, hcc, hinv m s, hv, if_false, hnb]
        by_cases hbv : best < -cv
        · simp only [hbv, if_true]
          exact ih s tt rpolls rpolls (-cv) m alpha false _ _ hab
            (le_trans hwb (le_of_lt hbv)) (not_lt.mp hv)
            (fun h => nomatch h) (fun _ => rfl)
        · simp only [hbv, if_false]
          exact ih s tt rpolls rpolls best bm alpha false _ _ hab hwb hba
            (fun h => nomatch h) (fun _ => rfl)
    | true =>
      have hbe : best = alpha := harm rfl
      obtain ⟨cw, hcw, hcws, hcwtt, wlo, whi, wex⟩ :=
        hchild (g.apply m s) tt polls2 (-BEST_EVAL) (-alpha) (by linarith)
      rcases hch2 : child (g.apply m s) tt polls2 (-BEST_EVAL) (-alpha)
        with ⟨rv2, rs2, rtt2, rpolls2, rh2⟩
      rw [hch2] at hcw hcws hcwtt
      have e1 : rv2 = some cw := hcw
      have e2 : rs2 = g.apply m s := hcws
      have e3 : tt = rtt2 := hcwtt.symm
      subst e1; subst e2; subst e3
      obtain ⟨pv, hpv, hpvs, hpvtt, plo, phi, pex⟩ :=
        hchild (g.apply m s) tt polls1 (-alpha - 1) (-alpha) (by linarith)
      rcases hchp : child (g.apply m s) tt polls1 (-alpha - 1) (-alpha)
        with ⟨rv1, rs1, rtt1, ppolls, ph⟩
      rw [hchp] at hpv hpvs hpvtt
      have f1 : rv1 = some pv := hpv
      have f2 : rs1 = g.apply m s := hpvs
      have f3 : tt = rtt1 := hpvtt.symm
      subst f1; subst f2; subst f3
      have hcc2 : negamax_child child false alpha BEST_EVAL (g.apply m s) tt
          polls2 = ⟨some (-cw), g.apply m s, tt, rpolls2, 1 + rh2⟩ := by
        unfold negamax_child
        simp only [Bool.false_eq_true, if_false, hch2]
      have hWlt : -BEST_EVAL < t (g.apply m s) := by
        have h6 := htm.1
        rwa [hWB] at h6
      have hltB : t (g.apply m s) < BEST_EVAL := htm.2
      by_cases hcase : alpha < -(t (g.apply m s))
      · -- the true child value raises alpha: the probe fails low and the
        -- re-search is exact, matching the full-window run exactly
        have hpvlow : pv ≤ -alpha - 1 := by
          by_contra hcon
          push_neg at hcon
          have h9 := Int.lt_iff_add_one_le.mp hcon
          have hge : -alpha ≤ pv := by linarith
          have h7 := phi hge
          linarith
        have htmpv : t (g.apply m s) ≤ pv := plo hpvlow
        have hWpv : -BEST_EVAL < pv := by linarith
        obtain ⟨rv, hrv, hrvs, hrvtt, rlo, rhi, rex⟩ :=
          hchild (g.apply m s) tt ppolls (-BEST_EVAL) pv (by linarith)
        rcases hchr : child (g.apply m s) tt ppolls (-BEST_EVAL) pv
          with ⟨rv3, rs3, rtt3, r3polls, r3h⟩
        rw [hchr] at hrv hrvs hrvtt
        have j1 : rv3 = some rv := hrv
        have j2 : rs3 = g.apply m s := hrvs
        have j3 : tt = rtt3 := hrvtt.symm
        subst j1; subst j2; subst j3
        have hrvtm : rv = t (g.apply m s) := by
          by_cases hr1 : rv ≤ -BEST_EVAL
          · exfalso
            have h8 := rlo hr1
            linarith
          · by_cases hr2 : pv ≤ rv
            · have h8 := rhi hr2
              linarith
            · exact rex (by linarith) (by linarith)
        have hprobe : alpha < -pv ∧ -pv < BEST_EVAL :=
          ⟨by linarith, by linarith⟩
        have hcw_eq : cw = t (g.apply m s) := by
          by_cases hw1 : cw ≤ -BEST_EVAL
          · exfalso
            have h8 := wlo hw1
            linarith
          · by_cases hw2 : -alpha ≤ cw
            · exfalso
              have h8 := whi hw2
              linarith
            · exact wex (by linarith) (by linarith)
        have hcc1 : negamax_child child true alpha BEST_EVAL (g.apply m s) tt
            polls1 = ⟨some (-rv), g.apply m s, tt, r3polls,
              max (1 + ph) (1 + r3h)⟩ := by
          unfold negamax_child
          simp only [if_true, hchp, hprobe, neg_neg, hchr, true_and]
        have ha1 : alpha < -(t (g.apply m s)) := hcase
        have hb1 : best < -(t (g.apply m s)) := by rw [hbe]; exact hcase
        have hnb : ¬ BEST_EVAL ≤ -(t (g.apply m s)) :=
          not_le.mpr (by linarith)
        have hab2 : -(t (g.apply m s)) < BEST_EVAL := by linarith
        have hwb2 : WORST_EVAL ≤ -(t (g.apply m s)) := by
          rw [hWB]
          linarith
        simp only [negamax_loop, hcc1, hcc2, hinv m s, hrvtm, hcw_eq, ha1,
          hb1, if_true, hnb, if_false]
        exact ih s tt r3polls rpolls2 (-(t (g.apply m s))) m
          (-(t (g.apply m s))) true _ _ hab2 hwb2 le_rfl (fun _ => rfl)
          (fun h => nomatch h)
      · -- the true child value does not reach alpha: the probe fails high
        -- and both runs discard the child value
        have hcase' : -(t (g.apply m s)) ≤ alpha := not_lt.mp hcase
        have hpvge : -alpha ≤ pv := by
          by_contra hcon
          push_neg at hcon
          have h7 := Int.lt_iff_add_one_le.mp hcon
          have h8 := plo (by linarith)
          linarith
        have ha1' : ¬ (alpha < -pv) := not_lt.mpr (by linarith)
        have hb1' : ¬ (best < -pv) := not_lt.mpr (by rw [hbe]; linarith)
        have hprobe' : ¬ (alpha < -pv ∧ -pv < BEST_EVAL) :=
          fun h => ha1' h.1
        have hcc1 : negamax_child child true alpha BEST_EVAL (g.apply m s) tt
            polls1 = ⟨some (-pv), g.apply m s, tt, ppolls, 1 + ph⟩ := by
          unfold negamax_child
          simp only [if_true, hchp, hprobe', if_false]
        have ha2' : ¬ (alpha < -cw) := by
          intro hcon
          have hw1 : -BEST_EVAL < cw := by
            by_contra hle
            push_neg at hle
            have h8 := wlo hle
            linarith
          have h9 := wex hw1 (by linarith)
          linarith
        have hb2' : ¬ (best < -cw) := not_lt.mpr
          (by rw [hbe]; exact not_lt.mp ha2')
        have hnb : ¬ BEST_EVAL ≤ alpha := not_le.mpr hab
        simp only [negamax_loop, hcc1, hcc2, hinv m s, ha1', hb1', ha2',
          hb2', if_false, hnb]
        exact ih s tt ppolls rpolls2 best bm alpha true _ _ hab hwb hba
          harm (fun h => nomatch h)

/-- C7 (amended): for every game whose `undo` reverses `apply` and whose
evaluations and winner values lie strictly inside
`(WORST_EVAL, BEST_EVAL)`, a single depth-1 `negamax` call from a fresh
table over the full window with the timeout never firing returns the same
root value with `null_window_search` enabled as with it disabled.  (At
greater depths the two settings can diverge through the table's
window-dependent bound entries; see the recorded counterexample.) -/
theorem C7_null_window_depth1 {S M : Type} [DecidableEq M] (g : Game S M)
    (hinv : ∀ (m : M) (s : S), g.undo m (g.apply m s) = s)
    (hev : ∀ s : S, WORST_EVAL < g.evaluate s ∧ g.evaluate s < BEST_EVAL)
    (hwin : ∀ (s : S) (w : Evaluation), g.get_winner s = some w →
      WORST_EVAL < w ∧ w < BEST_EVAL)
    (maxQ entry_size table_byte_size : Nat) (strat : Replacement)
    (s : S) (polls : Nat) :
    ∃ v,
      (negamax g (fun _ => false) maxQ true 1 s
        (new M entry_size table_byte_size strat) polls
        WORST_EVAL BEST_EVAL).value = some v ∧
      (negamax g (fun _ => false) maxQ false 1 s
        (new M entry_size table_byte_size strat) polls
        WORST_EVAL BEST_EVAL).value = some v := by
  have h1eq : ∀ nws : Bool,
      negamax g (fun _ => false) maxQ nws 1 =
        negamax_succ g (fun _ => false) nws 0
          (negamax_zero g (fun _ => false) maxQ) := fun _ => rfl
  rcases hw : g.get_winner s with _ | w
  · rcases hm : g.generate_moves s with _ | ⟨m0, rest⟩
    · refine ⟨WORST_EVAL, ?_, ?_⟩
      · rw [h1eq true]
        simp only [negamax_succ, Bool.false_eq_true, if_false, hw,
          check_fresh, hm]
      · rw [h1eq false]
        simp only [negamax_succ, Bool.false_eq_true, if_false, hw,
          check_fresh, hm]
    · obtain ⟨out, hout1, hout2⟩ :=
        negamax_loop_nws_eq g hinv (negamax_zero g (fun _ => false) maxQ)
          (noisy_true g maxQ) (noisy_true_bounds g hev hwin maxQ)
          (negamax_zero_fail_soft g hinv hev hwin maxQ)
          (m0 :: rest) s (new M entry_size table_byte_size strat)
          (polls + 1) (polls + 1) WORST_EVAL m0 WORST_EVAL false 0 0
          WORST_lt_BEST le_rfl le_rfl (fun _ => rfl) (fun _ => rfl)
      rcases out with ⟨bv, bmv⟩
      rcases hL1 : negamax_loop g true (negamax_zero g (fun _ => false) maxQ)
          (m0 :: rest) s (new M entry_size table_byte_size strat) (polls + 1)
          WORST_EVAL m0 WORST_EVAL BEST_EVAL false 0
        with ⟨o1, s1, tt1, p1, hh1⟩
      rcases hL2 : negamax_loop g false (negamax_zero g (fun _ => false) maxQ)
          (m0 :: rest) s (new M entry_size table_byte_size strat) (polls + 1)
          WORST_EVAL m0 WORST_EVAL BEST_EVAL false 0
        with ⟨o2, s2, tt2, p2, hh2⟩
      rw [hL1] at hout1
      rw [hL2] at hout2
      have ho1 : o1 = some (bv, bmv) := hout1
      have ho2 : o2 = some (bv, bmv) := hout2
      subst ho1; subst ho2
      refine ⟨clamp_value bv, ?_, ?_⟩
      · rw [h1eq true]
        simp only [negamax_succ, Bool.false_eq_true, if_false, hw,
          check_fresh, hm, reorder_moves, List.headD_cons, hL1]
      · rw [h1eq false]
        simp only [negamax_succ, Bool.false_eq_true, if_false, hw,
          check_fresh, hm, reorder_moves, List.headD_cons, hL2]
  · refine ⟨w, ?_, ?_⟩
    · rw [h1eq true]
      simp only [negamax_succ, Bool.false_eq_true, if_false, hw]
    · rw [h1eq false]
      simp only [negamax_succ, Bool.false_eq_true, if_false, hw]

theorem C7_null_window_depth1_witness :
    (∀ (m : Nat) (s : Int), bnd_game.undo m (bnd_game.apply m s) = s) ∧
    (∀ s : Int, WORST_EVAL < bnd_game.evaluate s ∧
      bnd_game.evaluate s < BEST_EVAL) ∧
    ∃ v,
      (negamax bnd_game (fun _ => false) 2 true 1 0
        (new Nat 16 64 Replacement.TwoTier) 0
        WORST_EVAL BEST_EVAL).value = some v ∧
      (negamax bnd_game (fun _ => false) 2 false 1 0
        (new Nat 16 64 Replacement.TwoTier) 0
        WORST_EVAL BEST_EVAL).value = some v :=
  ⟨fun m s => by simp [bnd_game],
   fun s => ⟨show WORST_EVAL < (3 : Evaluation) by decide,
     show (3 : Evaluation) < BEST_EVAL by decide⟩,
   C7_null_window_depth1 bnd_game (fun m s => by simp [bnd_game])
     (fun s => ⟨show WORST_EVAL < (3 : Evaluation) by decide,
       show (3 : Evaluation) < BEST_EVAL by decide⟩)
     (fun s w h => nomatch h)
     2 16 64 Replacement.TwoTier 0 0⟩

end Minimax
